import Mathlib

/-!
Verification of the `groupjson` Go library (file `runtime.go`, with the
`Options` type from its options file) against its natural-language
specification.

The development is a shallow embedding of the source:

* Go struct types are embedded as `TypeEnv` entries (a named list of
  `GoStructField`s carrying the raw struct tags); `buildSchema` below is a
  line-by-line translation of the Go `buildSchema` breadth-first walk.
* Go runtime values are embedded as `GoVal`; pointers are modelled as
  indices into an explicit `Heap`, which is what makes cyclic Go values
  (the inputs of the cycle-detection claims) representable.  The identity
  used by the Go cycle detector (`v.Addr().Pointer()`) is the heap index a
  value was reached through; values not reached through a pointer carry no
  identity, matching the fact that in the modelled value space a fresh Go
  address can never be revisited.
* The encoder (`encodeValue`, `encodeStruct`, ...) is translated function
  by function.  Go's mutable `context` is split: `depth` is threaded in
  and out of every call (the source increments it in `incDepth` and only
  decrements through `defer`red `decDepth`s, so a truncation return leaks
  an increment - the threading reproduces that), while the `visited` set
  and the error `path` are handled exactly by scoped passing (`visited`
  is always restored by a `defer` registered right after insertion, and
  the path only decorates error messages, which the claims compare by
  base error, as `errors.Is` does).
* All recursion that is not structural in Go (pointer chasing, the BFS
  over possibly pointer-recursive types) takes a `fuel : Nat`; a `none`
  result means the computation did not finish within `fuel`, mirroring
  nontermination.  Every theorem either fixes a concrete generous fuel or
  hypothesises a successful run.
* The final serialization step (`encoding/json` applied to the
  `map[string]any` tree) is embedded by `jvEnc`: JSON objects come from Go
  maps, so their keys are emitted in sorted order, exactly as
  `encoding/json` documents for map values; `json.Unmarshal` into `any`
  (used by the `json.Marshaler` hook branch) is embedded by `jsonUnmarshal`
  for the integer-valued fragment of the grammar that the modelled values
  produce.  Byte slices (base64), floating point values and hook errors
  are outside the modelled value space; no claim mentions them.
-/

namespace GroupJson

/-- Mirror of the Go `GroupMode` enumeration (`ModeOr` is the zero value). -/
inductive GroupMode where
  | modeOr : GroupMode
  | modeAnd : GroupMode
deriving DecidableEq, Repr

/-- Mirror of the Go `DepthPolicy` enumeration (`DepthTruncate` is the zero value). -/
inductive DepthPolicy where
  | depthTruncate : DepthPolicy
  | depthError : DepthPolicy
deriving DecidableEq, Repr

/-- Mirror of the Go `CutoffCollection` enumeration (`Null` is the zero value). -/
inductive CutoffCollection where
  | cutNull : CutoffCollection
  | cutEmpty : CutoffCollection
deriving DecidableEq, Repr

/-- Mirror of the Go constant `DefaultTagKey`. -/
def DefaultTagKey : String := "groups"

/-- Mirror of the Go constant `DefaultMaxDepth`. -/
def DefaultMaxDepth : Int := 32

/-- Mirror of the Go `Options` struct of the encoder (`MaxDepth` is a Go `int`,
hence `Int` here: `MarshalWith` lets a caller pass any value, including
non-positive ones). -/
structure Options where
  Groups : List String
  Mode : GroupMode
  TagKey : String
  TopLevelKey : String
  MaxDepth : Int
  DepthPolicy : DepthPolicy
  CutoffCollection : CutoffCollection
  EscapeHTML : Bool
  SortKeys : Bool
  AllowMapInput : Bool
  AllowSliceInput : Bool
deriving DecidableEq, Repr

/-- Mirror of the Go `DefaultOptions` (fields it does not list are Go zero
values). -/
def DefaultOptions : Options :=
  { Groups := []
    Mode := GroupMode.modeOr
    TagKey := DefaultTagKey
    TopLevelKey := ""
    MaxDepth := DefaultMaxDepth
    DepthPolicy := DepthPolicy.depthTruncate
    CutoffCollection := CutoffCollection.cutNull
    EscapeHTML := false
    SortKeys := false
    AllowMapInput := false
    AllowSliceInput := false }

/-- Base errors of the library (`errors.go`).  `WrapError` only decorates an
error with a path string and keeps the base error reachable through
`Unwrap`/`errors.Is`; the claims all compare by base error, so the path is not
modelled and `WrapError` is the identity here.  `errUnmarshal` stands for an
error returned by `json.Unmarshal` inside the `json.Marshaler` hook branch. -/
inductive Err where
  | errNilValue : Err
  | errInvalidType : Err
  | errMaxDepth : Err
  | errCircularReference : Err
  | errUnsupportedType : Err
  | errNonStringMapKey : Err
  | errUnmarshal : Err
deriving DecidableEq, Repr

/-! ### Type layer: Go struct types and the schema builder -/

/-- The fragment of Go's type structure that `buildSchema` inspects: it only
asks whether a field's type is a struct, or a pointer to a struct (for
anonymous promotion); every other type is `prim`. -/
inductive GoTy where
  | prim : GoTy
  | strct : String → GoTy
  | ptr : GoTy → GoTy
deriving DecidableEq, Repr

/-- One declared field of a Go struct type. `exported` is `PkgPath == ""`,
`tags` is the parsed struct tag (a key/value list; `reflect.StructTag.Get`
returns `""` for an absent key, see `tagGet`). -/
structure GoStructField where
  name : String
  exported : Bool
  anonymous : Bool
  tags : List (String × String)
  ty : GoTy
deriving DecidableEq, Repr

/-- A set of named Go struct types (the reflection environment). -/
abbrev TypeEnv := List (String × List GoStructField)

/-- Mirror of `reflect.StructTag.Get`: the value under `key`, or `""` when the
tag key is absent. -/
def tagGet (tags : List (String × String)) (key : String) : String :=
  match tags.lookup key with
  | some v => v
  | none => ""

/-- Character-level worker for `splitComma`. -/
def splitCommaChars (acc : List Char) : List Char → List String
  | [] => [String.mk acc.reverse]
  | c :: cs =>
    if c = ',' then String.mk acc.reverse :: splitCommaChars [] cs
    else splitCommaChars (c :: acc) cs

/-- Mirror of Go `strings.Split(s, ",")`: split at every comma, keeping empty
pieces; in particular the empty input string yields `[""]` (a one-element
list holding the empty string), exactly as in Go. -/
def splitComma (s : String) : List String :=
  splitCommaChars [] s.data

/-- Mirror of the Go `fieldInfo` struct built by `buildSchema`. -/
structure fieldInfo where
  name : String
  jsonName : String
  index : List Nat
  omitEmpty : Bool
  omitZero : Bool
  groups : List String
  anonymous : Bool
deriving DecidableEq, Repr

/-- Mirror of the Go `schema` struct. -/
structure schema where
  fields : List fieldInfo
deriving DecidableEq, Repr

/-- Mirror of the local `queueItem` of `buildSchema` (`depth` is carried by the
source but never read back; it is kept for fidelity). -/
structure queueItem where
  tyName : String
  index : List Nat
  depth : Nat
deriving DecidableEq, Repr

/-- The type a field is promoted from when it is an anonymous embedding:
mirror of the source condition
`sf.Type.Kind() == Struct || (sf.Type.Kind() == Ptr && sf.Type.Elem().Kind() == Struct)`
followed by the pointer dereference `st = st.Elem()`. -/
def embeddedStructName : GoTy → Option String
  | GoTy.strct n => some n
  | GoTy.ptr (GoTy.strct n) => some n
  | _ => none

/-- The inner field loop of the Go `buildSchema` BFS, for one dequeued struct:
walks the declared fields in order, skipping unexported fields and `json:"-"`,
enqueueing anonymous embeddings (struct or pointer-to-struct, with no explicit
json name), and otherwise appending a `fieldInfo` unless the emitted name was
already seen (first-enqueued wins). -/
def procFields (tagKey : String) (base : List Nat) (qdepth : Nat) :
    List GoStructField → Nat → List fieldInfo → List String → List queueItem →
    List fieldInfo × List String × List queueItem
  | [], _, out, seen, newQ => (out, seen, newQ)
  | sf :: rest, i, out, seen, newQ =>
    if sf.exported = false then
      procFields tagKey base qdepth rest (i + 1) out seen newQ
    else
      let tag := tagGet sf.tags "json"
      if tag = "-" then
        procFields tagKey base qdepth rest (i + 1) out seen newQ
      else
        let parts := splitComma tag
        let p0 := parts.headD ""
        let jname := if 0 < p0.length then p0 else sf.name
        let oE := parts.tail.contains "omitempty"
        let oZ := parts.tail.contains "omitzero"
        match embeddedStructName sf.ty with
        | some st =>
          if sf.anonymous ∧ p0.length = 0 then
            procFields tagKey base qdepth rest (i + 1) out seen
              (newQ ++ [⟨st, base ++ [i], qdepth + 1⟩])
          else
            let groups := splitComma (tagGet sf.tags tagKey)
            let fi : fieldInfo := ⟨sf.name, jname, base ++ [i], oE, oZ, groups, sf.anonymous⟩
            if seen.contains jname then
              procFields tagKey base qdepth rest (i + 1) out seen newQ
            else
              procFields tagKey base qdepth rest (i + 1) (out ++ [fi]) (jname :: seen) newQ
        | none =>
          let groups := splitComma (tagGet sf.tags tagKey)
          let fi : fieldInfo := ⟨sf.name, jname, base ++ [i], oE, oZ, groups, sf.anonymous⟩
          if seen.contains jname then
            procFields tagKey base qdepth rest (i + 1) out seen newQ
          else
            procFields tagKey base qdepth rest (i + 1) (out ++ [fi]) (jname :: seen) newQ

/-- The outer BFS loop of the Go `buildSchema`: pop the front queue item, skip
it if it is not a struct type (in this embedding: not in the environment),
process its fields, append the newly enqueued embeddings.  `fuel` bounds the
number of dequeues, since a type that anonymously embeds a pointer to itself
makes the Go loop run forever. -/
def bfsBuild (env : TypeEnv) (tagKey : String) :
    Nat → List queueItem → List fieldInfo → List String → Option (List fieldInfo)
  | _, [], out, _ => some out
  | 0, _ :: _, _, _ => none
  | fuel + 1, it :: q, out, seen =>
    match env.lookup it.tyName with
    | none => bfsBuild env tagKey fuel q out seen
    | some flds =>
      let r := procFields tagKey it.index it.depth flds 0 out seen []
      bfsBuild env tagKey fuel (q ++ r.2.2) r.1 r.2.1

/-- Mirror of the Go `buildSchema`. -/
def buildSchema (env : TypeEnv) (tagKey : String) (t : String) (fuel : Nat) : Option schema :=
  match bfsBuild env tagKey fuel [⟨t, [], 0⟩] [] [] with
  | none => none
  | some out => some ⟨out⟩

/-- Mirror of the Go `getSchema`.  The `sync.Map` memoisation is transparent
to results (`buildSchema` is deterministic and the cache is only ever filled
with its output), so the cache itself is not modelled. -/
def getSchema (env : TypeEnv) (tagKey : String) (t : String) (fuel : Nat) : Option schema :=
  buildSchema env tagKey t fuel

/-! ### The visibility filter -/

/-- Mirror of `Encoder.includeField` (the `switch` has `ModeAnd` and a
`default` arm that implements OR). -/
def includeField (opts : Options) (fieldGroups : List String) : Bool :=
  if opts.Groups.isEmpty then false
  else
    match opts.Mode with
    | GroupMode.modeAnd =>
      opts.Groups.all (fun g => fieldGroups.any (fun fg => fg = g))
    | GroupMode.modeOr =>
      opts.Groups.any (fun g => fieldGroups.any (fun fg => fg = g))

/-! ### The intermediate value tree (`any` built from `map[string]any`, `[]any`, scalars) -/

/-- The Go `any` tree that `MarshalToMap` builds and `encoding/json` then
serializes: `jObj` is a `map[string]any` (so its list order is unobservable,
serialization sorts the keys), `jArr` a `[]any`, `jNull` a nil `any`, nil map
or nil slice. -/
inductive Jv where
  | jNull : Jv
  | jBool : Bool → Jv
  | jInt : Int → Jv
  | jStr : String → Jv
  | jArr : List Jv → Jv
  | jObj : List (String × Jv) → Jv

/-- Hex digit used by `encoding/json` for `\u00XX` escapes (lowercase). -/
def hexDigitChar (n : Nat) : Char :=
  if n < 10 then Char.ofNat (48 + n) else Char.ofNat (87 + n)

/-- Mirror of the `encoding/json` string escaper: `"` and `\` and control
characters are always escaped (`\n`, `\r`, `\t` short forms, `\u00XX`
otherwise), `<`, `>`, `&` only when HTML escaping is on, and U+2028/U+2029
always. -/
def escapeChar (escHTML : Bool) (c : Char) : String :=
  if c = '"' then "\\\""
  else if c = '\\' then "\\\\"
  else if c = '\n' then "\\n"
  else if c = '\r' then "\\r"
  else if c = '\t' then "\\t"
  else if c.toNat < 32 then
    String.mk ['\\', 'u', '0', '0', hexDigitChar (c.toNat / 16), hexDigitChar (c.toNat % 16)]
  else if escHTML && (c = '<' || c = '>' || c = '&') then
    String.mk ['\\', 'u', '0', '0', hexDigitChar (c.toNat / 16), hexDigitChar (c.toNat % 16)]
  else if c.toNat = 8232 then "\\u2028"
  else if c.toNat = 8233 then "\\u2029"
  else String.singleton c

/-- JSON string quoting as `encoding/json` performs it. -/
def quoteStr (escHTML : Bool) (s : String) : String :=
  "\"" ++ String.join (s.data.map (escapeChar escHTML)) ++ "\""

/-- Lexicographic comparison of character lists by code point - for valid
UTF-8 this coincides with Go's byte-wise string `<` used by
`sort.Strings`. -/
def charListLt : List Char → List Char → Bool
  | _, [] => false
  | [], _ :: _ => true
  | a :: as, b :: bs =>
    if a.toNat < b.toNat then true
    else if b.toNat < a.toNat then false
    else charListLt as bs

/-- Go string `<` (byte-wise lexicographic). -/
def strLt (a b : String) : Bool := charListLt a.data b.data

/-- Ascending insertion of an encoded object member by raw key (Go
`sort.Strings` on the map keys; keys of a Go map are distinct). -/
def insertPair (e : String × String) : List (String × String) → List (String × String)
  | [] => [e]
  | p :: rest => if strLt e.1 p.1 then e :: p :: rest else p :: insertPair e rest

/-- Sort encoded object members by raw key, ascending (what `encoding/json`
does before writing a map value). -/
def sortPairs : List (String × String) → List (String × String)
  | [] => []
  | e :: rest => insertPair e (sortPairs rest)

/-- Comma-join of already-encoded pieces (what `encoding/json` produces
between members). -/
def joinComma : List String → String
  | [] => ""
  | [s] => s
  | s :: rest => s ++ "," ++ joinComma rest

/-- Mirror of the `encoding/json` serializer on the `any` tree produced by
`MarshalToMap`: compact output, keys of objects (Go maps) emitted in sorted
order.  Members are encoded first and then sorted by raw key, which produces
the same bytes as sorting the keys first, since members are independent. -/
def jvEnc (esc : Bool) : Jv → String
  | Jv.jNull => "null"
  | Jv.jBool b => if b then "true" else "false"
  | Jv.jInt n => toString n
  | Jv.jStr s => quoteStr esc s
  | Jv.jArr xs => "[" ++ joinComma (encList xs) ++ "]"
  | Jv.jObj es =>
    "\x7b" ++
      joinComma ((sortPairs (encEntries es)).map (fun p => quoteStr esc p.1 ++ ":" ++ p.2)) ++
      "\x7d"
where
  /-- Elementwise serialization of an array. -/
  encList : List Jv → List String
    | [] => []
    | x :: xs => jvEnc esc x :: encList xs
  /-- Memberwise serialization of an object, keeping the raw keys for
  sorting. -/
  encEntries : List (String × Jv) → List (String × String)
    | [] => []
    | (k, v) :: rest => (k, jvEnc esc v) :: encEntries rest

/-! ### The `json.Unmarshal`-into-`any` fragment used by the hook branch -/

/-- JSON whitespace. -/
def jWs (c : Char) : Bool := c = ' ' || c = '\t' || c = '\n' || c = '\r'

/-- Skip leading JSON whitespace. -/
def jSkipWs : List Char → List Char
  | c :: cs => if jWs c then jSkipWs cs else c :: cs
  | [] => []

/-- Decimal digit test. -/
def jDigit (c : Char) : Bool := 48 ≤ c.toNat && c.toNat ≤ 57

/-- Take a maximal run of digits. -/
def jTakeDigits : List Char → List Char × List Char
  | c :: cs =>
    if jDigit c then
      let r := jTakeDigits cs
      (c :: r.1, r.2)
    else ([], c :: cs)
  | [] => ([], [])

/-- Value of a digit run. -/
def jDigitsVal (ds : List Char) : Nat :=
  ds.foldl (fun a c => a * 10 + (c.toNat - 48)) 0

/-- Body of a JSON string after the opening quote; the modelled fragment has
no escape sequences (none of the hook outputs in this development contain
any). -/
def jParseStrAux (acc : List Char) : List Char → Option (String × List Char)
  | [] => none
  | c :: cs =>
    if c = '"' then some (String.mk acc.reverse, cs)
    else if c = '\\' then none
    else jParseStrAux (c :: acc) cs

/-- Opening and closing brace characters. -/
def jLBrace : Char := Char.ofNat 123

/-- Closing brace character. -/
def jRBrace : Char := Char.ofNat 125

/-- Replacing insertion into a parsed object (Go `m[k] = v`: the last
occurrence of a duplicated key wins). -/
def objUpsert (k : String) (v : Jv) : List (String × Jv) → List (String × Jv)
  | [] => [(k, v)]
  | (k2, v2) :: rest =>
    if k2 = k then (k2, v) :: rest else (k2, v2) :: objUpsert k v rest

mutual

/-- Recursive-descent parser for the fragment of JSON that `json.Unmarshal`
decodes into `any`; numbers are restricted to integers (Go decodes every
number as `float64`, and `encoding/json` re-encodes an integer-valued
`float64` in plain integer form, so `jInt` is that value's faithful image). -/
def jParseVal (fuel : Nat) (cs : List Char) : Option (Jv × List Char) :=
  match fuel with
  | 0 => none
  | fuel + 1 =>
    match jSkipWs cs with
    | 'n' :: 'u' :: 'l' :: 'l' :: r => some (Jv.jNull, r)
    | 't' :: 'r' :: 'u' :: 'e' :: r => some (Jv.jBool true, r)
    | 'f' :: 'a' :: 'l' :: 's' :: 'e' :: r => some (Jv.jBool false, r)
    | '"' :: r =>
      match jParseStrAux [] r with
      | some (s, r2) => some (Jv.jStr s, r2)
      | none => none
    | '[' :: r =>
      match jSkipWs r with
      | ']' :: r2 => some (Jv.jArr [], r2)
      | r2 =>
        match jParseElems fuel r2 [] with
        | some (xs, r3) => some (Jv.jArr xs, r3)
        | none => none
    | c :: r =>
      if c = jLBrace then
        match jSkipWs r with
        | c2 :: r2 =>
          if c2 = jRBrace then some (Jv.jObj [], r2)
          else
            match jParseMembers fuel (c2 :: r2) [] with
            | some (ms, r3) => some (Jv.jObj ms, r3)
            | none => none
        | [] => none
      else
        let neg := c = '-'
        let body := if neg then r else c :: r
        let dr := jTakeDigits body
        if dr.1.isEmpty then none
        else some (Jv.jInt ((if neg then -1 else 1) * (jDigitsVal dr.1 : Int)), dr.2)
    | [] => none

/-- Array elements: value, then `,` and more elements, or `]`. -/
def jParseElems (fuel : Nat) (cs : List Char) (acc : List Jv) : Option (List Jv × List Char) :=
  match fuel with
  | 0 => none
  | fuel + 1 =>
    match jParseVal fuel cs with
    | none => none
    | some (x, r) =>
      match jSkipWs r with
      | ',' :: r2 => jParseElems fuel r2 (acc ++ [x])
      | ']' :: r2 => some (acc ++ [x], r2)
      | _ => none

/-- Object members: `"key" : value`, then `,` and more members, or `}`. -/
def jParseMembers (fuel : Nat) (cs : List Char) (acc : List (String × Jv)) :
    Option (List (String × Jv) × List Char) :=
  match fuel with
  | 0 => none
  | fuel + 1 =>
    match jSkipWs cs with
    | '"' :: r =>
      match jParseStrAux [] r with
      | none => none
      | some (k, r2) =>
        match jSkipWs r2 with
        | ':' :: r3 =>
          match jParseVal fuel r3 with
          | none => none
          | some (v, r4) =>
            match jSkipWs r4 with
            | ',' :: r5 => jParseMembers fuel r5 (objUpsert k v acc)
            | c :: r5 => if c = jRBrace then some (objUpsert k v acc, r5) else none
            | [] => none
        | _ => none
    | _ => none

end

/-- Mirror of `json.Unmarshal(b, &anyVal)` on the modelled fragment: parse one
value and require only whitespace to remain. -/
def jsonUnmarshal (s : String) : Option Jv :=
  match jParseVal (s.length * 2 + 4) s.data with
  | some (j, rest) => if (jSkipWs rest).isEmpty then some j else none
  | none => none

/-! ### Runtime values and the heap -/

/-- Embedded Go runtime values.  Pointers index an explicit `Heap` (which is
how cyclic values are representable); `vJSONMarshaler` is a value whose type
implements `json.Marshaler` and carries the bytes its hook returns;
`vTextMarshaler` likewise carries its `MarshalText` output, together with
whether the underlying value is its type's zero value (`underlyingZero`, data
the encoder itself never reads - it exists so that claims can speak about the
pre-encoding value).  Byte slices, floats and hook errors are outside the
modelled space. -/
inductive GoVal where
  | vInt : Int → GoVal
  | vBool : Bool → GoVal
  | vStr : String → GoVal
  | vStruct : String → List GoVal → GoVal
  | vPtr : Option Nat → GoVal
  | vSlice : Bool → List GoVal → GoVal
  | vMap : Bool → List (String × GoVal) → GoVal
  | vJSONMarshaler : String → GoVal
  | vTextMarshaler : String → Bool → GoVal

/-- The heap: pointer targets, indexed by address. -/
abbrev Heap := List GoVal

/-- Dereference a heap address.  A dangling address cannot arise from a
well-formed Go value; it falls back to a nil pointer. -/
def heapGet (heap : Heap) (a : Nat) : GoVal :=
  (heap.get? a).getD (GoVal.vPtr none)

/-- Mirror of the Go `fieldByIndex`: walk the index path, dereferencing any
intermediate (or final) non-nil pointer.  The second component is the identity
(heap address) the final value was reached through, if the last step was a
pointer dereference - this is the address `v.Addr().Pointer()` would report
for the cycle check; a value not reached through a pointer has a fresh Go
address that no modelled pointer can revisit, hence `none`. -/
def fieldByIndex (heap : Heap) : GoVal → Option Nat → List Nat → GoVal × Option Nat
  | v, ident, [] => (v, ident)
  | v, _, i :: rest =>
    let fv := match v with
      | GoVal.vStruct _ fs => fs.getD i (GoVal.vPtr none)
      | _ => GoVal.vPtr none
    match fv with
    | GoVal.vPtr (some a) => fieldByIndex heap (heapGet heap a) (some a) rest
    | _ => fieldByIndex heap fv none rest

/-- Mirror of the Go `isZeroScalar` on the modelled kinds (int, bool,
string). -/
def isZeroScalar : GoVal → Bool
  | GoVal.vInt n => n = 0
  | GoVal.vBool b => !b
  | GoVal.vStr s => s.length = 0
  | _ => false

/-- Mirror of `reflect.Value.IsZero` on the kinds that reach the scalar
branch of `encodeValue` (int, bool, string - identical to `isZeroScalar`
there). -/
def reflectIsZero : GoVal → Bool
  | GoVal.vInt n => n = 0
  | GoVal.vBool b => !b
  | GoVal.vStr s => s.length = 0
  | _ => false

/-- Whether the pre-encoding Go value is its type's zero/empty value
(`reflect.Value.IsZero` semantics, extended to every modelled constructor).
The encoder never consults this on hook values; it exists so claims can
compare the code's suppression decision with the pre-encoding value. -/
def underlyingIsZero : GoVal → Bool
  | GoVal.vInt n => n = 0
  | GoVal.vBool b => !b
  | GoVal.vStr s => s.length = 0
  | GoVal.vPtr a => a.isNone
  | GoVal.vSlice isNil _ => isNil
  | GoVal.vMap isNil _ => isNil
  | GoVal.vStruct _ fs => allZero fs
  | GoVal.vJSONMarshaler _ => false
  | GoVal.vTextMarshaler _ z => z
where
  /-- All of a struct's field values are zero. -/
  allZero : List GoVal → Bool
    | [] => true
    | v :: rest => underlyingIsZero v && allZero rest

/-- Scalar kinds (the values handled by the `default:` arm of
`encodeValue`). -/
def scalarShape : GoVal → Bool
  | GoVal.vInt _ => true
  | GoVal.vBool _ => true
  | GoVal.vStr _ => true
  | _ => false

/-- The `any` a scalar turns into (`v.Interface()`). -/
def scalarJv : GoVal → Jv
  | GoVal.vInt n => Jv.jInt n
  | GoVal.vBool b => Jv.jBool b
  | GoVal.vStr s => Jv.jStr s
  | _ => Jv.jNull

/-! ### The recursive encoder

Go's `context` is threaded explicitly: `depth` flows in and comes back out of
every call (`incDepth` always increments, and only `defer`red `decDepth`s
undo it, so returns taken before the `defer` is registered - the truncation
returns - leak the increment, which the returned value reproduces); `visited`
flows only in, because its removal is `defer`red immediately after insertion
and therefore runs on every exit path.  `decD` is `decDepth`. -/

/-- Mirror of `context.decDepth`. -/
def decD (d : Nat) : Nat := if 0 < d then d - 1 else d

/-- The `any` a `map[string]any` result becomes (`nil` map encodes as
`null`). -/
def structJv : Option (List (String × Jv)) → Jv
  | none => Jv.jNull
  | some es => Jv.jObj es

/-- The `any` a `[]any` result becomes (`nil` slice encodes as `null`). -/
def sliceJv : Option (List Jv) → Jv
  | none => Jv.jNull
  | some xs => Jv.jArr xs

mutual

/-- Mirror of `Encoder.encodeValue`.  Dispatch order as in the source: nil
pointer, pointer dereference (the dereferenced struct keeps the pointer's
address as its identity), `json.Marshaler` hook (unmarshal the hook's bytes
into `any`), `encoding.TextMarshaler` hook, then the kind switch (struct, map,
slice, default scalar arm).  The modelled value space has no interface
wrappers, byte slices, or unsupported kinds (see the header).  Arguments
after the fuel: depth, visited, ident, the value, `omitEmpty`, `omitZero`.
Returns ((value, omit) or error, updated depth), or `none` when `fuel` runs
out. -/
def encodeValue (cfg : Options) (env : TypeEnv) (heap : Heap) :
    Nat → Nat → List Nat → Option Nat → GoVal → Bool → Bool →
      Option (Except Err (Jv × Bool) × Nat)
  | 0, _, _, _, _, _, _ => none
  | fuel + 1, depth, visited, ident, v, omitEmpty, omitZero =>
    match v with
    | GoVal.vPtr none => some (Except.ok (Jv.jNull, omitEmpty), depth)
    | GoVal.vPtr (some a) =>
      encodeValue cfg env heap fuel depth visited (some a) (heapGet heap a)
        omitEmpty omitZero
    | GoVal.vJSONMarshaler b =>
      match jsonUnmarshal b with
      | none => some (Except.error Err.errUnmarshal, depth)
      | some j => some (Except.ok (j, false), depth)
    | GoVal.vTextMarshaler txt _ =>
      if omitEmpty && txt.length = 0 then some (Except.ok (Jv.jNull, true), depth)
      else some (Except.ok (Jv.jStr txt, false), depth)
    | GoVal.vStruct ty fs =>
      match encodeStruct cfg env heap fuel depth visited ident ty fs with
      | none => none
      | some (Except.error e, d) => some (Except.error e, d)
      | some (Except.ok m, d) => some (Except.ok (structJv m, false), d)
    | GoVal.vMap isNil entries =>
      if (depth + 1 : Int) > cfg.MaxDepth then
        if cfg.DepthPolicy = DepthPolicy.depthError then
          some (Except.error Err.errMaxDepth, depth + 1)
        else if cfg.CutoffCollection = CutoffCollection.cutEmpty then
          some (Except.ok (Jv.jObj [], false), depth + 1)
        else some (Except.ok (Jv.jNull, false), depth + 1)
      else
        if omitEmpty && (isNil || entries.length = 0) then
          some (Except.ok (Jv.jNull, true), decD (depth + 1))
        else
          match encodeEntries cfg env heap fuel (depth + 1) visited entries [] with
          | none => none
          | some (Except.error e, d) => some (Except.error e, decD d)
          | some (Except.ok out, d) => some (Except.ok (Jv.jObj out, false), decD d)
    | GoVal.vSlice isNil elems =>
      if (depth + 1 : Int) > cfg.MaxDepth then
        if cfg.DepthPolicy = DepthPolicy.depthError then
          some (Except.error Err.errMaxDepth, depth + 1)
        else if cfg.CutoffCollection = CutoffCollection.cutEmpty then
          some (Except.ok (Jv.jArr [], false), depth + 1)
        else some (Except.ok (Jv.jNull, false), depth + 1)
      else
        if omitEmpty && (isNil || elems.length = 0) then
          some (Except.ok (Jv.jNull, true), decD (depth + 1))
        else
          match encodeSlice cfg env heap fuel (depth + 1) visited isNil elems with
          | none => none
          | some (Except.error e, d) => some (Except.error e, decD d)
          | some (Except.ok arr, d) => some (Except.ok (sliceJv arr, false), decD d)
    | sv =>
      if omitEmpty && reflectIsZero sv then some (Except.ok (Jv.jNull, true), depth)
      else if omitZero && isZeroScalar sv then some (Except.ok (Jv.jNull, true), depth)
      else some (Except.ok (scalarJv sv, false), depth)
termination_by structural fuel => fuel

/-- Mirror of `Encoder.encodeStruct`: `incDepth` with the policy applied on
overflow (the truncation return happens before `defer ctx.decDepth()` is
registered, so it leaks the increment), cycle check and insertion when the
value is addressable (`ident`), schema lookup, then the field loop.  A `nil`
map result is `Except.ok none`.  Arguments after the fuel: depth, visited,
ident, the struct's type name and field values. -/
def encodeStruct (cfg : Options) (env : TypeEnv) (heap : Heap) :
    Nat → Nat → List Nat → Option Nat → String → List GoVal →
      Option (Except Err (Option (List (String × Jv))) × Nat)
  | 0, _, _, _, _, _ => none
  | fuel + 1, depth, visited, ident, tyName, fvals =>
    if (depth + 1 : Int) > cfg.MaxDepth then
      if cfg.DepthPolicy = DepthPolicy.depthError then
        some (Except.error Err.errMaxDepth, depth + 1)
      else some (Except.ok none, depth + 1)
    else
      let isCycle := match ident with
        | some a => visited.contains a
        | none => false
      if isCycle then some (Except.error Err.errCircularReference, decD (depth + 1))
      else
        let visited2 := match ident with
          | some a => a :: visited
          | none => visited
        match getSchema env cfg.TagKey tyName fuel with
        | none => none
        | some sch =>
          match encodeFields cfg env heap fuel (depth + 1) visited2
              (GoVal.vStruct tyName fvals) sch.fields [] with
          | none => none
          | some (Except.error e, d) => some (Except.error e, decD d)
          | some (Except.ok out, d) => some (Except.ok (some out), decD d)
termination_by structural fuel => fuel

/-- The field loop of `encodeStruct`: skip every field when the requested
group list is empty, skip fields the visibility filter excludes, resolve the
field value through `fieldByIndex`, encode it, and attach it under its emitted
name unless the omit flag came back.  Arguments after the fuel: depth,
visited, the struct value, the remaining descriptors, the accumulator. -/
def encodeFields (cfg : Options) (env : TypeEnv) (heap : Heap) :
    Nat → Nat → List Nat → GoVal → List fieldInfo → List (String × Jv) →
      Option (Except Err (List (String × Jv)) × Nat)
  | 0, _, _, _, _, _ => none
  | fuel + 1, depth, visited, sv, fields, acc =>
    match fields with
    | [] => some (Except.ok acc, depth)
    | fld :: rest =>
      if cfg.Groups.isEmpty then
        encodeFields cfg env heap fuel depth visited sv rest acc
      else if !(includeField cfg fld.groups) then
        encodeFields cfg env heap fuel depth visited sv rest acc
      else
        let fr := fieldByIndex heap sv none fld.index
        match encodeValue cfg env heap fuel depth visited fr.2 fr.1
            fld.omitEmpty fld.omitZero with
        | none => none
        | some (Except.error e, d) => some (Except.error e, d)
        | some (Except.ok (val, omitted), d) =>
          if omitted then encodeFields cfg env heap fuel d visited sv rest acc
          else encodeFields cfg env heap fuel d visited sv rest (acc ++ [(fld.jsonName, val)])
termination_by structural fuel => fuel

/-- Mirror of `Encoder.encodeSlice` (no depth bookkeeping of its own; a nil
slice yields a nil `[]any`, hence `null`).  Arguments after the fuel: depth,
visited, the nil flag, the elements. -/
def encodeSlice (cfg : Options) (env : TypeEnv) (heap : Heap) :
    Nat → Nat → List Nat → Bool → List GoVal →
      Option (Except Err (Option (List Jv)) × Nat)
  | 0, _, _, _, _ => none
  | fuel + 1, depth, visited, isNil, elems =>
    if isNil then some (Except.ok none, depth)
    else
      match encodeElems cfg env heap fuel depth visited elems [] with
      | none => none
      | some (Except.error e, d) => some (Except.error e, d)
      | some (Except.ok xs, d) => some (Except.ok (some xs), d)
termination_by structural fuel => fuel

/-- The element loop of `encodeSlice`.  Arguments after the fuel: depth,
visited, the remaining elements, the accumulator. -/
def encodeElems (cfg : Options) (env : TypeEnv) (heap : Heap) :
    Nat → Nat → List Nat → List GoVal → List Jv →
      Option (Except Err (List Jv) × Nat)
  | 0, _, _, _, _ => none
  | fuel + 1, depth, visited, elems, acc =>
    match elems with
    | [] => some (Except.ok acc, depth)
    | x :: rest =>
      match encodeValue cfg env heap fuel depth visited none x false false with
      | none => none
      | some (Except.error e, d) => some (Except.error e, d)
      | some (Except.ok (val, _), d) =>
        encodeElems cfg env heap fuel d visited rest (acc ++ [val])
termination_by structural fuel => fuel

/-- The entry loop shared by the map arm of `encodeValue` and
`encodeMapTop` (modelled maps are string-keyed; `out[k] = val`).  Arguments
after the fuel: depth, visited, the remaining entries, the accumulator. -/
def encodeEntries (cfg : Options) (env : TypeEnv) (heap : Heap) :
    Nat → Nat → List Nat → List (String × GoVal) → List (String × Jv) →
      Option (Except Err (List (String × Jv)) × Nat)
  | 0, _, _, _, _ => none
  | fuel + 1, depth, visited, entries, acc =>
    match entries with
    | [] => some (Except.ok acc, depth)
    | (k, x) :: rest =>
      match encodeValue cfg env heap fuel depth visited none x false false with
      | none => none
      | some (Except.error e, d) => some (Except.error e, d)
      | some (Except.ok (val, _), d) =>
        encodeEntries cfg env heap fuel d visited rest (acc ++ [(k, val)])
termination_by structural fuel => fuel

end

/-- Mirror of `Encoder.encodeMapTop` (root map: a nil map yields a nil result
map; modelled maps are string-keyed, so the key-kind error arm is
unreachable). -/
def encodeMapTop (cfg : Options) (env : TypeEnv) (heap : Heap) :
    Nat → Nat → List Nat → Bool → List (String × GoVal) →
      Option (Except Err (Option (List (String × Jv))) × Nat)
  | 0, _, _, _, _ => none
  | fuel + 1, depth, visited, isNil, entries =>
    if isNil then some (Except.ok none, depth)
    else
      match encodeEntries cfg env heap fuel depth visited entries [] with
      | none => none
      | some (Except.error e, d) => some (Except.error e, d)
      | some (Except.ok out, d) => some (Except.ok (some out), d)

/-- The root unwrap and kind switch of `Encoder.MarshalToMap`: dereference
leading pointers (nil pointer: `ErrNilValue`), then dispatch on the kind -
struct always, map/slice only behind their `Allow` gates (slice results are
wrapped under the fixed key `"data"`), anything else `ErrInvalidType`.  Each
arm starts from a fresh `context` (`depth 0`, empty visited set); `ident` is
the address the root was reached through, making a root reached through a
pointer addressable for the cycle check, as in the source. -/
def marshalRoot (cfg : Options) (env : TypeEnv) (heap : Heap) :
    Nat → Option Nat → GoVal → Option (Except Err (Option (List (String × Jv))))
  | 0, _, _ => none
  | fuel + 1, ident, v =>
    match v with
    | GoVal.vPtr none => some (Except.error Err.errNilValue)
    | GoVal.vPtr (some a) => marshalRoot cfg env heap fuel (some a) (heapGet heap a)
    | GoVal.vStruct ty fs =>
      match encodeStruct cfg env heap fuel 0 [] ident ty fs with
      | none => none
      | some (Except.error e, _) => some (Except.error e)
      | some (Except.ok m, _) => some (Except.ok m)
    | GoVal.vMap isNil entries =>
      if cfg.AllowMapInput = false then some (Except.error Err.errInvalidType)
      else
        match encodeMapTop cfg env heap fuel 0 [] isNil entries with
        | none => none
        | some (Except.error e, _) => some (Except.error e)
        | some (Except.ok m, _) => some (Except.ok m)
    | GoVal.vSlice isNil elems =>
      if cfg.AllowSliceInput = false then some (Except.error Err.errInvalidType)
      else
        match encodeSlice cfg env heap fuel 0 [] isNil elems with
        | none => none
        | some (Except.error e, _) => some (Except.error e)
        | some (Except.ok arr, _) => some (Except.ok (some [("data", sliceJv arr)]))
    | _ => some (Except.error Err.errInvalidType)

/-- Mirror of `Encoder.MarshalToMap`. -/
def marshalToMap (cfg : Options) (env : TypeEnv) (heap : Heap) (fuel : Nat) (v : GoVal) :
    Option (Except Err (Option (List (String × Jv)))) :=
  marshalRoot cfg env heap fuel none v

/-- Mirror of `Encoder.Marshal`: build the map, wrap it under `TopLevelKey`
when one is set, serialize with `encoding/json` (HTML escaping per the
option; the trailing newline of `json.Encoder` is trimmed by the source and
not modelled). -/
def marshal (cfg : Options) (env : TypeEnv) (heap : Heap) (fuel : Nat) (v : GoVal) :
    Option (Except Err String) :=
  match marshalToMap cfg env heap fuel v with
  | none => none
  | some (Except.error e) => some (Except.error e)
  | some (Except.ok m) =>
    let mJv := structJv m
    let wrapped := if cfg.TopLevelKey = "" then mJv else Jv.jObj [(cfg.TopLevelKey, mJv)]
    some (Except.ok (jvEnc cfg.EscapeHTML wrapped))

/-! ### Statement helpers for the schema claims

These re-express single steps of `procFields` so that theorems can talk about
"the first visible field emitting a name"; each is read off the corresponding
branch of `procFields`. -/

/-- Whether a declared field produces a `fieldInfo` when processed (exported,
not `json:"-"`, and not promoted as an anonymous embedding). -/
def fieldVisible (sf : GoStructField) : Bool :=
  sf.exported &&
    !(tagGet sf.tags "json" = "-") &&
    !(sf.anonymous && (embeddedStructName sf.ty).isSome &&
      ((splitComma (tagGet sf.tags "json")).headD "").length = 0)

/-- The emitted (JSON) name of a declared field: the json tag's name part if
non-empty, else the Go identifier. -/
def emitNameOf (sf : GoStructField) : String :=
  let p0 := (splitComma (tagGet sf.tags "json")).headD ""
  if 0 < p0.length then p0 else sf.name

/-- The `fieldInfo` that `procFields` constructs for a visible field at
position `i` under index prefix `base`. -/
def mkFieldInfo (tagKey : String) (base : List Nat) (i : Nat) (sf : GoStructField) : fieldInfo :=
  ⟨sf.name, emitNameOf sf, base ++ [i],
    (splitComma (tagGet sf.tags "json")).tail.contains "omitempty",
    (splitComma (tagGet sf.tags "json")).tail.contains "omitzero",
    splitComma (tagGet sf.tags tagKey), sf.anonymous⟩

/-- The first visible declared field emitting name `n`, scanning from
position `i`. -/
def firstEmit (n : String) : List GoStructField → Nat → Option (Nat × GoStructField)
  | [], _ => none
  | sf :: rest, i =>
    if fieldVisible sf && emitNameOf sf = n then some (i, sf)
    else firstEmit n rest (i + 1)

/-! ### Concrete instances used by the claims -/

/-- The `User` struct of the repository's tests (`id`/`name` in
`public,admin`, `email` in `admin`, `password` in `internal`). -/
def envUser : TypeEnv :=
  [("User",
    [⟨"ID", true, false, [("json", "id"), ("groups", "public,admin")], GoTy.prim⟩,
     ⟨"Name", true, false, [("json", "name"), ("groups", "public,admin")], GoTy.prim⟩,
     ⟨"Email", true, false, [("json", "email"), ("groups", "admin")], GoTy.prim⟩,
     ⟨"Password", true, false, [("json", "password"), ("groups", "internal")], GoTy.prim⟩])]

/-- The schema `buildSchema` produces for `User`. -/
def schemaUser : schema :=
  ⟨[⟨"ID", "id", [0], false, false, ["public", "admin"], false⟩,
    ⟨"Name", "name", [1], false, false, ["public", "admin"], false⟩,
    ⟨"Email", "email", [2], false, false, ["admin"], false⟩,
    ⟨"Password", "password", [3], false, false, ["internal"], false⟩]⟩

/-- A `User` value. -/
def userAlice : GoVal :=
  GoVal.vStruct "User" [GoVal.vInt 1, GoVal.vStr "Alice", GoVal.vStr "a@x", GoVal.vStr "p"]

/-- Default options with the `public` group requested. -/
def cfgPublic : Options := { DefaultOptions with Groups := ["public"] }

/-- Default options with a single group `g` requested. -/
def cfgG : Options := { DefaultOptions with Groups := ["g"] }

/-- A self-linked list node type: one pointer field `next` in group `g`. -/
def envNode : TypeEnv :=
  [("Node",
    [⟨"Next", true, false, [("json", "next"), ("groups", "g")], GoTy.ptr (GoTy.strct "Node")⟩])]

/-- The schema `buildSchema` produces for `Node`. -/
def schemaNode : schema := ⟨[⟨"Next", "next", [0], false, false, ["g"], false⟩]⟩

/-- Five linked `Node` records: cell `i` points to cell `i+1`, the last one
ends with a nil pointer. -/
def heapChain : Heap :=
  [GoVal.vStruct "Node" [GoVal.vPtr (some 1)],
   GoVal.vStruct "Node" [GoVal.vPtr (some 2)],
   GoVal.vStruct "Node" [GoVal.vPtr (some 3)],
   GoVal.vStruct "Node" [GoVal.vPtr (some 4)],
   GoVal.vStruct "Node" [GoVal.vPtr none]]

/-- Two mutually referencing `Node` records. -/
def heapCycle : Heap :=
  [GoVal.vStruct "Node" [GoVal.vPtr (some 1)],
   GoVal.vStruct "Node" [GoVal.vPtr (some 0)]]

/-- Group `g`, maximum depth 2, truncate policy (the default). -/
def cfgChainTrunc : Options := { DefaultOptions with Groups := ["g"], MaxDepth := 2 }

/-- Group `g`, maximum depth 2, error policy. -/
def cfgChainErr : Options :=
  { cfgChainTrunc with DepthPolicy := DepthPolicy.depthError }

/-- A struct whose single field `f` carries no visibility tag at all. -/
def envUntagged : TypeEnv :=
  [("P", [⟨"F", true, false, [("json", "f")], GoTy.prim⟩])]

/-- The schema `buildSchema` produces for `P`: the absent `groups` tag parses
to `[""]`, a one-element list holding the empty string - not the empty
list. -/
def schemaUntagged : schema := ⟨[⟨"F", "f", [0], false, false, [""], false⟩]⟩

/-- Default options requesting the single group `""` (the empty-string
label). -/
def cfgEmptyLabel : Options := { DefaultOptions with Groups := [""] }

/-- A struct declaring `b` before `a` (both in group `g`). -/
def envTwoFields : TypeEnv :=
  [("T2", [⟨"B", true, false, [("json", "b"), ("groups", "g")], GoTy.prim⟩,
           ⟨"A", true, false, [("json", "a"), ("groups", "g")], GoTy.prim⟩])]

/-- The same struct with the two fields declared in the opposite order. -/
def envTwoFieldsRev : TypeEnv :=
  [("T2", [⟨"A", true, false, [("json", "a"), ("groups", "g")], GoTy.prim⟩,
           ⟨"B", true, false, [("json", "b"), ("groups", "g")], GoTy.prim⟩])]

/-- The schema `buildSchema` produces for `T2`: descriptor order follows
declaration order, `b` before `a`. -/
def schemaTwoFields : schema :=
  ⟨[⟨"B", "b", [0], false, false, ["g"], false⟩,
    ⟨"A", "a", [1], false, false, ["g"], false⟩]⟩

/-- `Outer` anonymously embeds `Inner` (declared first) and then declares its
own field emitting `name`; `Inner` also declares a field emitting `name`,
plus one emitting `extra`. -/
def envEmbed : TypeEnv :=
  [("Outer",
    [⟨"Inner", true, true, [], GoTy.strct "Inner"⟩,
     ⟨"Name", true, false, [("json", "name"), ("groups", "g")], GoTy.prim⟩]),
   ("Inner",
    [⟨"Name", true, false, [("json", "name"), ("groups", "g")], GoTy.prim⟩,
     ⟨"Extra", true, false, [("json", "extra"), ("groups", "g")], GoTy.prim⟩])]

/-- A struct with one field `h` in group `g` (its value will be a
`json.Marshaler`). -/
def envHook : TypeEnv :=
  [("H", [⟨"Hk", true, false, [("json", "h"), ("groups", "g")], GoTy.prim⟩])]

/-- A struct with one `omitempty` field `f` in group `g` (its value will be a
`TextMarshaler`). -/
def envTextHook : TypeEnv :=
  [("S8", [⟨"F", true, false, [("json", "f,omitempty"), ("groups", "g")], GoTy.prim⟩])]

/-- Default options with the `public` group requested and slice roots
allowed. -/
def cfgSlice : Options :=
  { DefaultOptions with Groups := ["public"], AllowSliceInput := true }

/-- The schema `buildSchema` produces for `Outer`: exactly one descriptor
emitting `name` - the outer (shallower) declaration, a direct field at index
path `[1]` - plus the promoted `extra` from the embedding at `[0, 1]`. -/
def schemaEmbed : schema :=
  ⟨[⟨"Name", "name", [1], false, false, ["g"], false⟩,
    ⟨"Extra", "extra", [0, 1], false, false, ["g"], false⟩]⟩


/-! ### Helper lemmas -/

/-- A non-empty requested group list has `isEmpty = false`. -/
theorem groups_isEmpty_false {cfg : Options} (hG : cfg.Groups ≠ []) :
    cfg.Groups.isEmpty = false := by
  cases h : cfg.Groups with
  | nil => exact absurd h hG
  | cons a l => rfl

/-- A selected field implies the requested list was non-empty. -/
theorem includeField_ne_nil {cfg : Options} {fg : List String}
    (h : includeField cfg fg = true) : cfg.Groups ≠ [] := by
  intro hnil
  unfold includeField at h
  rw [hnil] at h
  simp at h

/-- The filter rejects the parsed group list `[""]` of an untagged field
whenever the request does not contain the empty-string label, in both
modes. -/
theorem includeField_empty_label (cfg : Options) (h : ("" : String) ∉ cfg.Groups) :
    includeField cfg [""] = false := by
  cases hb : includeField cfg [""] with
  | false => rfl
  | true =>
    exfalso
    have hne := includeField_ne_nil hb
    unfold includeField at hb
    rw [groups_isEmpty_false hne] at hb
    simp only [Bool.false_eq_true, if_false] at hb
    cases hm : cfg.Mode with
    | modeAnd =>
      rw [hm] at hb
      obtain ⟨g, hg⟩ := List.exists_mem_of_ne_nil _ hne
      have := List.all_eq_true.mp hb g hg
      simp only [List.any_eq_true, List.mem_singleton, decide_eq_true_eq] at this
      obtain ⟨x, hx, hxg⟩ := this
      subst hx
      exact h (hxg ▸ hg)
    | modeOr =>
      rw [hm] at hb
      obtain ⟨g, hgmem, hgany⟩ := List.any_eq_true.mp hb
      simp only [List.any_eq_true, List.mem_singleton, decide_eq_true_eq] at hgany
      obtain ⟨x, hx, hxg⟩ := hgany
      subst hx
      exact h (hxg ▸ hgmem)

/-- Unfolding step: the single-descriptor field loop of `Node` propagates an
error from the field's encoding, given that the filter selects the field. -/
theorem encodeFields_one_err (cfg : Options) (env : TypeEnv) (heap : Heap)
    (hEmp : cfg.Groups.isEmpty = false) (hinc : includeField cfg ["g"] = true)
    (fuel d d2 : Nat) (vis : List Nat) (sv : GoVal) (e : Err)
    (hv : encodeValue cfg env heap fuel d vis (fieldByIndex heap sv none [0]).2
        (fieldByIndex heap sv none [0]).1 false false = some (Except.error e, d2)) :
    encodeFields cfg env heap (fuel + 1) d vis sv
      [⟨"Next", "next", [0], false, false, ["g"], false⟩] [] =
      some (Except.error e, d2) := by
  simp only [encodeFields, hEmp, hinc, Bool.not_true, Bool.false_eq_true, if_false, hv]

/-- Unfolding step: `encodeStruct` on a `Node` value below the depth limit,
with a fresh identity, propagates an error from its field loop and runs the
deferred `decDepth`. -/
theorem encodeStruct_node_err (cfg : Options) (env : TypeEnv) (heap : Heap)
    (fuel d d2 : Nat) (vis : List Nat) (a : Nat) (fv : List GoVal) (e : Err)
    (hd : (d : Int) + 1 ≤ cfg.MaxDepth)
    (hna : vis.contains a = false)
    (hsch : getSchema env cfg.TagKey "Node" fuel = some schemaNode)
    (hf : encodeFields cfg env heap fuel (d + 1) (a :: vis)
        (GoVal.vStruct "Node" fv) schemaNode.fields [] = some (Except.error e, d2)) :
    encodeStruct cfg env heap (fuel + 1) d vis (some a) "Node" fv =
      some (Except.error e, decD d2) := by
  simp only [encodeStruct]
  rw [if_neg (not_lt.mpr hd), hna, hsch]
  simp only [Bool.false_eq_true, if_false, hf]

/-- Unfolding step: `encodeStruct` fails with the cycle error when the
identity it was reached through is already on the active stack (and the depth
limit has not yet been hit). -/
theorem encodeStruct_cycle (cfg : Options) (env : TypeEnv) (heap : Heap)
    (fuel d : Nat) (vis : List Nat) (a : Nat) (ty : String) (fv : List GoVal)
    (hd : (d : Int) + 1 ≤ cfg.MaxDepth)
    (ha : vis.contains a = true) :
    encodeStruct cfg env heap (fuel + 1) d vis (some a) ty fv =
      some (Except.error Err.errCircularReference, decD (d + 1)) := by
  simp only [encodeStruct]
  rw [if_neg (not_lt.mpr hd), ha]
  simp only [if_true]

/-- Unfolding step: `encodeValue` on a struct propagates a struct-encoding
error unchanged. -/
theorem encodeValue_struct_err (cfg : Options) (env : TypeEnv) (heap : Heap)
    (fuel d d2 : Nat) (vis : List Nat) (ident : Option Nat) (ty : String)
    (fs : List GoVal) (oE oZ : Bool) (e : Err)
    (hv : encodeStruct cfg env heap fuel d vis ident ty fs = some (Except.error e, d2)) :
    encodeValue cfg env heap (fuel + 1) d vis ident (GoVal.vStruct ty fs) oE oZ =
      some (Except.error e, d2) := by
  simp only [encodeValue, hv]

/-- Unfolding step: the root unwrap dereferences a non-nil pointer and keeps
its address as the root identity. -/
theorem marshalRoot_ptr (cfg : Options) (env : TypeEnv) (heap : Heap)
    (fuel : Nat) (ident : Option Nat) (a : Nat) :
    marshalRoot cfg env heap (fuel + 1) ident (GoVal.vPtr (some a)) =
      marshalRoot cfg env heap fuel (some a) (heapGet heap a) := by
  simp only [marshalRoot]

/-- Unfolding step: a struct root propagates a struct-encoding error. -/
theorem marshalRoot_struct_err (cfg : Options) (env : TypeEnv) (heap : Heap)
    (fuel d2 : Nat) (ident : Option Nat) (ty : String) (fs : List GoVal) (e : Err)
    (hv : encodeStruct cfg env heap fuel 0 [] ident ty fs = some (Except.error e, d2)) :
    marshalRoot cfg env heap (fuel + 1) ident (GoVal.vStruct ty fs) =
      some (Except.error e) := by
  simp only [marshalRoot, hv]

/-- Unfolding step: `Marshal` returns the error `MarshalToMap` produced. -/
theorem marshal_of_err (cfg : Options) (env : TypeEnv) (heap : Heap)
    (fuel : Nat) (v : GoVal) (e : Err)
    (hm : marshalToMap cfg env heap fuel v = some (Except.error e)) :
    marshal cfg env heap fuel v = some (Except.error e) := by
  simp only [marshal, hm]

/-! ### C3 -/

/-- C3: a five-level linked record with maximum depth 2: under the truncate
policy `Marshal` succeeds and the output below the second level is `null`
(the third record is cut off); under the error policy `Marshal` fails with
`ErrMaxDepth`. -/
theorem c3_depth_policy :
    marshal cfgChainTrunc envNode heapChain 100 (GoVal.vPtr (some 0)) =
      some (Except.ok "\x7b\"next\":\x7b\"next\":null\x7d\x7d") ∧
    marshal cfgChainErr envNode heapChain 100 (GoVal.vPtr (some 0)) =
      some (Except.error Err.errMaxDepth) :=
  ⟨rfl, rfl⟩

/-! ### C2 -/

/-- C2 counterexample: the schema for `T2` lists its descriptors in
declaration order `b` before `a`, but `Marshal` emits the keys sorted
(`a` before `b`), because the intermediate `map[string]any` is serialized by
`encoding/json`, which sorts map keys - the serialized key order is not the
FieldDescriptor order. -/
theorem c2_counterexample :
    getSchema envTwoFields "groups" "T2" 49 = some schemaTwoFields ∧
    schemaTwoFields.fields.map fieldInfo.jsonName = ["b", "a"] ∧
    marshal cfgG envTwoFields [] 50 (GoVal.vStruct "T2" [GoVal.vInt 1, GoVal.vInt 2]) =
      some (Except.ok "\x7b\"a\":2,\"b\":1\x7d") ∧
    ("\x7b\"a\":2,\"b\":1\x7d" : String) ≠ "\x7b\"b\":1,\"a\":2\x7d" :=
  ⟨rfl, rfl, rfl, by decide⟩

/-- Transitivity of the byte-wise lexicographic order on character lists. -/
theorem charListLt_trans (xs : List Char) : ∀ (ys zs : List Char),
    charListLt xs ys = true → charListLt ys zs = true → charListLt xs zs = true := by
  induction xs with
  | nil =>
    intro ys zs h1 h2
    cases zs with
    | nil =>
      cases ys with
      | nil => simp [charListLt] at h1
      | cons b bs => simp [charListLt] at h2
    | cons c cs => simp [charListLt]
  | cons a as ih =>
    intro ys zs h1 h2
    cases ys with
    | nil => simp [charListLt] at h1
    | cons b bs =>
      cases zs with
      | nil => simp [charListLt] at h2
      | cons c cs =>
        simp only [charListLt] at h1 h2 ⊢
        by_cases hab : a.toNat < b.toNat
        · by_cases hbc : b.toNat < c.toNat
          · rw [if_pos (Nat.lt_trans hab hbc)]
          · rw [if_neg hbc] at h2
            by_cases hcb : c.toNat < b.toNat
            · rw [if_pos hcb] at h2
              cases h2
            · rw [if_pos (show a.toNat < c.toNat by omega)]
        · rw [if_neg hab] at h1
          by_cases hba : b.toNat < a.toNat
          · rw [if_pos hba] at h1
            cases h1
          · rw [if_neg hba] at h1
            by_cases hbc : b.toNat < c.toNat
            · rw [if_pos (show a.toNat < c.toNat by omega)]
            · rw [if_neg hbc] at h2
              by_cases hcb : c.toNat < b.toNat
              · rw [if_pos hcb] at h2
                cases h2
              · rw [if_neg hcb] at h2
                rw [if_neg (show ¬a.toNat < c.toNat by omega),
                  if_neg (show ¬c.toNat < a.toNat by omega)]
                exact ih bs cs h1 h2

/-- Asymmetry of the byte-wise lexicographic order on character lists. -/
theorem charListLt_asymm (xs : List Char) : ∀ (ys : List Char),
    charListLt xs ys = true → charListLt ys xs = false := by
  induction xs with
  | nil =>
    intro ys h
    cases ys with
    | nil => simp [charListLt] at h
    | cons b bs => simp [charListLt]
  | cons a as ih =>
    intro ys h
    cases ys with
    | nil => simp [charListLt] at h
    | cons b bs =>
      simp only [charListLt] at h ⊢
      by_cases hab : a.toNat < b.toNat
      · rw [if_neg (show ¬b.toNat < a.toNat by omega), if_pos hab]
      · rw [if_neg hab] at h
        by_cases hba : b.toNat < a.toNat
        · rw [if_pos hba] at h
          cases h
        · rw [if_neg hba] at h
          rw [if_neg hba, if_neg hab]
          exact ih bs h

/-- Character lists neither of which precedes the other are equal. -/
theorem charListLt_conn (xs : List Char) : ∀ (ys : List Char),
    charListLt xs ys = false → charListLt ys xs = false → xs = ys := by
  induction xs with
  | nil =>
    intro ys h1 h2
    cases ys with
    | nil => rfl
    | cons b bs => simp [charListLt] at h1
  | cons a as ih =>
    intro ys h1 h2
    cases ys with
    | nil => simp [charListLt] at h2
    | cons b bs =>
      simp only [charListLt] at h1 h2
      by_cases hab : a.toNat < b.toNat
      · rw [if_pos hab] at h1
        cases h1
      · rw [if_neg hab] at h1
        by_cases hba : b.toNat < a.toNat
        · rw [if_pos hba] at h2
          cases h2
        · rw [if_neg hba] at h1
          rw [if_neg hba, if_neg hab] at h2
          have hc : a = b := by
            apply Char.eq_of_val_eq
            exact UInt32.toNat.inj (show a.toNat = b.toNat by omega)
          rw [hc, ih bs h1 h2]

/-- `strLt` asymmetry, lifted to strings. -/
theorem strLt_asymm (a b : String) (h : strLt a b = true) : strLt b a = false :=
  charListLt_asymm a.data b.data h

/-- Strings neither of which precedes the other are equal. -/
theorem strLt_conn (a b : String) (h1 : strLt a b = false) (h2 : strLt b a = false) :
    a = b := by
  cases a with
  | mk da =>
    cases b with
    | mk db => exact congrArg String.mk (charListLt_conn da db h1 h2)

/-- Inserting a member yields a permutation of consing it. -/
theorem insertPair_perm (e : String × String) (l : List (String × String)) :
    (insertPair e l).Perm (e :: l) := by
  induction l with
  | nil => exact List.Perm.refl _
  | cons p rest ih =>
    by_cases h : strLt e.1 p.1 = true
    · simp only [insertPair]
      rw [if_pos h]
    · simp only [insertPair]
      rw [if_neg h]
      exact (List.Perm.cons p ih).trans (List.Perm.swap e p rest)

/-- `sortPairs` permutes its input. -/
theorem sortPairs_perm (l : List (String × String)) : (sortPairs l).Perm l := by
  induction l with
  | nil => exact List.Perm.refl _
  | cons e rest ih =>
    simp only [sortPairs]
    exact (insertPair_perm e (sortPairs rest)).trans (List.Perm.cons e ih)

/-- The head of an insertion is the inserted member or the old head. -/
theorem insertPair_head (e : String × String) (l : List (String × String)) :
    (insertPair e l).head? = some e ∨ (insertPair e l).head? = l.head? := by
  cases l with
  | nil => exact Or.inl rfl
  | cons p rest =>
    by_cases h : strLt e.1 p.1 = true
    · simp only [insertPair]
      rw [if_pos h]
      exact Or.inl rfl
    · simp only [insertPair]
      rw [if_neg h]
      exact Or.inr rfl

/-- Insertion preserves ascending key order. -/
theorem insertPair_chain (e : String × String) (l : List (String × String))
    (hc : List.Chain' (fun a b => strLt b.1 a.1 = false) l) :
    List.Chain' (fun a b => strLt b.1 a.1 = false) (insertPair e l) := by
  induction l with
  | nil => simp [insertPair]
  | cons p rest ih =>
    by_cases h : strLt e.1 p.1 = true
    · simp only [insertPair]
      rw [if_pos h]
      exact List.chain'_cons.mpr ⟨strLt_asymm e.1 p.1 h, hc⟩
    · simp only [insertPair]
      rw [if_neg h]
      have hep : strLt e.1 p.1 = false := by
        cases hcc : strLt e.1 p.1 with
        | false => rfl
        | true => exact absurd hcc h
      obtain ⟨hhead, htail⟩ := List.chain'_cons'.mp hc
      refine List.chain'_cons'.mpr ⟨?_, ih htail⟩
      intro x hx
      rcases insertPair_head e rest with hh | hh
      · rw [hh] at hx
        cases Option.some.inj hx
        exact hep
      · rw [hh] at hx
        exact hhead x hx

/-- `sortPairs` output is ascending by key. -/
theorem sortPairs_chain (l : List (String × String)) :
    List.Chain' (fun a b => strLt b.1 a.1 = false) (sortPairs l) := by
  induction l with
  | nil => simp [sortPairs]
  | cons e rest ih =>
    simp only [sortPairs]
    exact insertPair_chain e (sortPairs rest) ih

/-- Ascending chains with distinct keys are strictly ascending. -/
theorem chain_strict (l : List (String × String))
    (hc : List.Chain' (fun a b => strLt b.1 a.1 = false) l)
    (hnd : (l.map Prod.fst).Nodup) :
    List.Chain' (fun a b => strLt a.1 b.1 = true) l := by
  induction l with
  | nil => simp
  | cons a t ih =>
    cases t with
    | nil => simp
    | cons b t2 =>
      obtain ⟨hab, hct⟩ := List.chain'_cons.mp hc
      have h1 : a.1 ∉ (b.1 :: t2.map Prod.fst) := (List.nodup_cons.mp hnd).1
      have hrest : (b.1 :: t2.map Prod.fst).Nodup := (List.nodup_cons.mp hnd).2
      have hne : a.1 ≠ b.1 := fun he => h1 (by rw [he]; exact List.mem_cons_self _ _)
      refine List.chain'_cons.mpr ⟨?_, ih hct hrest⟩
      cases hcc : strLt a.1 b.1 with
      | true => rfl
      | false => exact absurd (strLt_conn a.1 b.1 hcc hab) hne

/-- Sorted member lists with distinct keys that are permutations of each
other coincide. -/
theorem sortPairs_eq_of_perm (l₁ l₂ : List (String × String))
    (hp : l₁.Perm l₂) (hnd : (l₁.map Prod.fst).Nodup) :
    sortPairs l₁ = sortPairs l₂ := by
  have hperm : (sortPairs l₁).Perm (sortPairs l₂) :=
    ((sortPairs_perm l₁).trans hp).trans (sortPairs_perm l₂).symm
  have hnd₁ : ((sortPairs l₁).map Prod.fst).Nodup :=
    (((sortPairs_perm l₁).map Prod.fst).symm).nodup hnd
  have hnd₂ : ((sortPairs l₂).map Prod.fst).Nodup :=
    (((sortPairs_perm l₂).map Prod.fst).symm).nodup ((hp.map Prod.fst).nodup hnd)
  have hs₁ := chain_strict (sortPairs l₁) (sortPairs_chain l₁) hnd₁
  have hs₂ := chain_strict (sortPairs l₂) (sortPairs_chain l₂) hnd₂
  haveI : IsTrans (String × String) (fun a b => strLt a.1 b.1 = true) :=
    ⟨fun a b c hab hbc => charListLt_trans a.1.data b.1.data c.1.data hab hbc⟩
  haveI : IsAntisymm (String × String) (fun a b => strLt a.1 b.1 = true) :=
    ⟨fun a b hab hba => by
      rw [strLt_asymm a.1 b.1 hab] at hba
      cases hba⟩
  exact List.eq_of_perm_of_sorted hperm
    (List.chain'_iff_pairwise.mp hs₁) (List.chain'_iff_pairwise.mp hs₂)

/-- `jvEnc.encEntries` is member-wise encoding, keys untouched. -/
theorem encEntries_eq_map (esc : Bool) (l : List (String × Jv)) :
    jvEnc.encEntries esc l = l.map (fun p => (p.1, jvEnc esc p.2)) := by
  induction l with
  | nil => rfl
  | cons p rest ih =>
    cases p with
    | mk k v => simp only [jvEnc.encEntries, ih, List.map_cons]

/-- C2 amended: the serializer `Marshal` feeds the intermediate map to -
`jvEnc`, the model of `encoding/json` on a Go map - emits object members in
ascending (sorted) key order, independent of the member order it is handed:
(1) the object case of `jvEnc` is literally the sorted-member serialization;
(2) the emitted member list is ascending by key for every input; (3) any two
member lists that are permutations of each other with distinct keys (Go map
keys are distinct) serialize to identical bytes; and (4) concretely, the
record type declaring `b` before `a` and the one declaring `a` before `b`
marshal to identical bytes for all field values, keys emitted `a` then `b` -
so FieldDescriptor order is not preserved. -/
theorem c2_sorted_keys_amended :
    (∀ (esc : Bool) (es : List (String × Jv)),
      jvEnc esc (Jv.jObj es) =
        "\x7b" ++
          joinComma ((sortPairs (jvEnc.encEntries esc es)).map
            (fun p => quoteStr esc p.1 ++ ":" ++ p.2)) ++ "\x7d") ∧
    (∀ l : List (String × String),
      List.Chain' (fun a b => strLt b a = false) ((sortPairs l).map Prod.fst)) ∧
    (∀ (esc : Bool) (l₁ l₂ : List (String × Jv)),
      l₁.Perm l₂ → (l₁.map Prod.fst).Nodup →
      jvEnc esc (Jv.jObj l₁) = jvEnc esc (Jv.jObj l₂)) ∧
    (∀ x y : Int,
      marshal cfgG envTwoFields [] 50 (GoVal.vStruct "T2" [GoVal.vInt x, GoVal.vInt y]) =
        marshal cfgG envTwoFieldsRev [] 50 (GoVal.vStruct "T2" [GoVal.vInt y, GoVal.vInt x]) ∧
      marshal cfgG envTwoFields [] 50 (GoVal.vStruct "T2" [GoVal.vInt x, GoVal.vInt y]) =
        some (Except.ok
          ("\x7b" ++ joinComma ["\"a\":" ++ toString y, "\"b\":" ++ toString x] ++ "\x7d"))) := by
  refine ⟨fun esc es => rfl, ?_, ?_, fun x y => ⟨rfl, rfl⟩⟩
  · intro l
    exact (List.chain'_map Prod.fst).mpr (sortPairs_chain l)
  · intro esc l₁ l₂ hp hnd
    have hpe : (jvEnc.encEntries esc l₁).Perm (jvEnc.encEntries esc l₂) := by
      rw [encEntries_eq_map esc l₁, encEntries_eq_map esc l₂]
      exact hp.map _
    have hnde : ((jvEnc.encEntries esc l₁).map Prod.fst).Nodup := by
      rw [encEntries_eq_map esc l₁, List.map_map]
      exact hnd
    have hsp : sortPairs (jvEnc.encEntries esc l₁) = sortPairs (jvEnc.encEntries esc l₂) :=
      sortPairs_eq_of_perm (jvEnc.encEntries esc l₁) (jvEnc.encEntries esc l₂) hpe hnde
    show "\x7b" ++
        joinComma ((sortPairs (jvEnc.encEntries esc l₁)).map
          (fun p => quoteStr esc p.1 ++ ":" ++ p.2)) ++ "\x7d" =
      "\x7b" ++
        joinComma ((sortPairs (jvEnc.encEntries esc l₂)).map
          (fun p => quoteStr esc p.1 ++ ":" ++ p.2)) ++ "\x7d"
    rw [hsp]

/-- C2 amended, witnessed: a two-member object with keys `b`,`a` (distinct,
so the `Nodup` hypothesis holds by evaluation, and the permutation is the
transposition) serializes to the same bytes as its reordering. -/
theorem c2_sorted_keys_amended_witness :
    ([("b", Jv.jInt 1), ("a", Jv.jInt 2)] : List (String × Jv)).Perm
      [("a", Jv.jInt 2), ("b", Jv.jInt 1)] ∧
    (([("b", Jv.jInt 1), ("a", Jv.jInt 2)] : List (String × Jv)).map Prod.fst).Nodup ∧
    jvEnc false (Jv.jObj [("b", Jv.jInt 1), ("a", Jv.jInt 2)]) =
      jvEnc false (Jv.jObj [("a", Jv.jInt 2), ("b", Jv.jInt 1)]) :=
  ⟨List.Perm.swap ("a", Jv.jInt 2) ("b", Jv.jInt 1) [], by decide,
    c2_sorted_keys_amended.2.2.1 false [("b", Jv.jInt 1), ("a", Jv.jInt 2)]
      [("a", Jv.jInt 2), ("b", Jv.jInt 1)]
      (List.Perm.swap ("a", Jv.jInt 2) ("b", Jv.jInt 1) []) (by decide)⟩

/-! ### C4 -/

/-- C4 counterexample: with an empty requested group list the two mutually
referencing records marshal successfully to `\x7b\x7d` - no field is visited, so
no cycle is ever detected, refuting "for every requested group list Marshal
fails with the cycle error". -/
theorem c4_counterexample :
    marshal DefaultOptions envNode heapCycle 100 (GoVal.vPtr (some 0)) =
      some (Except.ok "\x7b\x7d") :=
  rfl

/-- C4 amended: for every requested group list and mode under which the
mutual-reference fields pass the visibility filter (with the other options at
their defaults, in particular depth 32 and tag key `groups`), `Marshal` of the
two-node cycle fails with `ErrCircularReference` - the error is raised when
the identity of the first record is revisited while still on the active
recursion stack. -/
theorem c4_cycle_amended (G : List String) (m : GroupMode) (fuel : Nat)
    (hinc : includeField { DefaultOptions with Groups := G, Mode := m } ["g"] = true) :
    marshal { DefaultOptions with Groups := G, Mode := m } envNode heapCycle (fuel + 9)
      (GoVal.vPtr (some 0)) = some (Except.error Err.errCircularReference) := by
  set cfg : Options := { DefaultOptions with Groups := G, Mode := m } with hcfg
  have hEmp : cfg.Groups.isEmpty = false := groups_isEmpty_false (includeField_ne_nil hinc)
  have hmd : ∀ d : Nat, d ≤ 2 → (d : Int) + 1 ≤ cfg.MaxDepth := by
    intro d hd
    show (d : Int) + 1 ≤ (32 : Int)
    omega
  have hsch : ∀ k : Nat, getSchema envNode cfg.TagKey "Node" (k + 1) = some schemaNode := by
    intro k
    have step1 : bfsBuild envNode "groups" (k + 1) [⟨"Node", [], 0⟩] [] [] =
        bfsBuild envNode "groups" k [] schemaNode.fields ["next"] := rfl
    have step2 : bfsBuild envNode "groups" k [] schemaNode.fields ["next"] =
        some schemaNode.fields := by simp only [bfsBuild]
    show buildSchema envNode "groups" "Node" (k + 1) = some schemaNode
    unfold buildSchema
    rw [step1, step2]
  have h3 : encodeStruct cfg envNode heapCycle (fuel + 1) 2 [1, 0] (some 0) "Node"
      [GoVal.vPtr (some 1)] = some (Except.error Err.errCircularReference, 2) :=
    encodeStruct_cycle cfg envNode heapCycle fuel 2 [1, 0] 0 "Node" _ (hmd 2 (by omega)) rfl
  have h2v : encodeValue cfg envNode heapCycle (fuel + 1 + 1) 2 [1, 0] (some 0)
      (GoVal.vStruct "Node" [GoVal.vPtr (some 1)]) false false =
      some (Except.error Err.errCircularReference, 2) :=
    encodeValue_struct_err cfg envNode heapCycle (fuel + 1) 2 2 [1, 0] (some 0) "Node" _
      false false _ h3
  have h2f : encodeFields cfg envNode heapCycle (fuel + 1 + 1 + 1) 2 [1, 0]
      (GoVal.vStruct "Node" [GoVal.vPtr (some 0)]) schemaNode.fields [] =
      some (Except.error Err.errCircularReference, 2) :=
    encodeFields_one_err cfg envNode heapCycle hEmp hinc (fuel + 1 + 1) 2 2 [1, 0] _ _ h2v
  have h2s : encodeStruct cfg envNode heapCycle (fuel + 1 + 1 + 1 + 1) 1 [0] (some 1) "Node"
      [GoVal.vPtr (some 0)] = some (Except.error Err.errCircularReference, 1) :=
    encodeStruct_node_err cfg envNode heapCycle (fuel + 1 + 1 + 1) 1 2 [0] 1 _ _
      (hmd 1 (by omega)) rfl (hsch (fuel + 1 + 1)) h2f
  have h1v : encodeValue cfg envNode heapCycle (fuel + 1 + 1 + 1 + 1 + 1) 1 [0] (some 1)
      (GoVal.vStruct "Node" [GoVal.vPtr (some 0)]) false false =
      some (Except.error Err.errCircularReference, 1) :=
    encodeValue_struct_err cfg envNode heapCycle (fuel + 1 + 1 + 1 + 1) 1 1 [0] (some 1)
      "Node" _ false false _ h2s
  have h1f : encodeFields cfg envNode heapCycle (fuel + 1 + 1 + 1 + 1 + 1 + 1) 1 [0]
      (GoVal.vStruct "Node" [GoVal.vPtr (some 1)]) schemaNode.fields [] =
      some (Except.error Err.errCircularReference, 1) :=
    encodeFields_one_err cfg envNode heapCycle hEmp hinc (fuel + 1 + 1 + 1 + 1 + 1) 1 1 [0]
      _ _ h1v
  have h1s : encodeStruct cfg envNode heapCycle (fuel + 1 + 1 + 1 + 1 + 1 + 1 + 1) 0 []
      (some 0) "Node" [GoVal.vPtr (some 1)] =
      some (Except.error Err.errCircularReference, 0) :=
    encodeStruct_node_err cfg envNode heapCycle (fuel + 1 + 1 + 1 + 1 + 1 + 1) 0 1 [] 0 _ _
      (hmd 0 (by omega)) rfl (hsch (fuel + 1 + 1 + 1 + 1 + 1)) h1f
  have hroot : marshalToMap cfg envNode heapCycle (fuel + 9) (GoVal.vPtr (some 0)) =
      some (Except.error Err.errCircularReference) := by
    show marshalRoot cfg envNode heapCycle (fuel + 9) none (GoVal.vPtr (some 0)) =
      some (Except.error Err.errCircularReference)
    have e1 := marshalRoot_ptr cfg envNode heapCycle (fuel + 8) none 0
    have e2 := marshalRoot_struct_err cfg envNode heapCycle
      (fuel + 1 + 1 + 1 + 1 + 1 + 1 + 1) 0 (some 0) "Node" [GoVal.vPtr (some 1)] _ h1s
    calc marshalRoot cfg envNode heapCycle (fuel + 9) none (GoVal.vPtr (some 0))
        = marshalRoot cfg envNode heapCycle (fuel + 8) (some 0) (heapGet heapCycle 0) := e1
      _ = some (Except.error Err.errCircularReference) := e2
  exact marshal_of_err cfg envNode heapCycle (fuel + 9) _ _ hroot

/-- C4 amended, witnessed at the group list `["g"]` in OR mode. -/
theorem c4_cycle_amended_witness :
    includeField { DefaultOptions with Groups := ["g"], Mode := GroupMode.modeOr } ["g"] = true ∧
    marshal { DefaultOptions with Groups := ["g"], Mode := GroupMode.modeOr } envNode heapCycle
      (0 + 9) (GoVal.vPtr (some 0)) = some (Except.error Err.errCircularReference) :=
  ⟨by decide, c4_cycle_amended ["g"] GroupMode.modeOr 0 (by decide)⟩

/-! ### C5 -/

/-- C5 counterexample: the absent visibility tag of field `f` parses to the
one-element list `[""]` (not the empty set), and a request for the
empty-string group selects it: the untagged field appears in the output,
refuting "the field never appears for any requested group list". -/
theorem c5_counterexample :
    getSchema envUntagged "groups" "P" 9 = some schemaUntagged ∧
    schemaUntagged.fields.map fieldInfo.groups = [[""]] ∧
    marshal cfgEmptyLabel envUntagged [] 50 (GoVal.vStruct "P" [GoVal.vInt 7]) =
      some (Except.ok "\x7b\"f\":7\x7d") :=
  ⟨rfl, rfl, rfl⟩

/-- C5 amended: a field with an absent visibility tag gets the parsed group
list `[""]`; the visibility filter excludes it for every requested group list
that does not contain the empty-string label, in both modes - so it never
appears except under a request for the pathological group `""`. -/
theorem c5_untagged_amended (cfg : Options) (h : ("" : String) ∉ cfg.Groups) :
    getSchema envUntagged "groups" "P" 9 = some schemaUntagged ∧
    ∀ fld ∈ schemaUntagged.fields, includeField cfg fld.groups = false := by
  refine ⟨rfl, ?_⟩
  intro fld hfld
  have : fld = ⟨"F", "f", [0], false, false, [""], false⟩ := by
    simpa [schemaUntagged] using hfld
  rw [this]
  exact includeField_empty_label cfg h

/-- C5 amended, witnessed at the request `["x"]`. -/
theorem c5_untagged_amended_witness :
    (("" : String) ∉ ({ DefaultOptions with Groups := ["x"] } : Options).Groups) ∧
    (getSchema envUntagged "groups" "P" 9 = some schemaUntagged ∧
      ∀ fld ∈ schemaUntagged.fields,
        includeField { DefaultOptions with Groups := ["x"] } fld.groups = false) :=
  ⟨by decide, c5_untagged_amended { DefaultOptions with Groups := ["x"] } (by decide)⟩

/-! ### C7 -/

/-- C7 counterexample: a `json.Marshaler` hook returning the bytes `[1, 2]`
(with an inner space) yields the output `\x7b"h":[1,2]\x7d` - the hook's bytes are
unmarshalled and re-encoded, so they do not appear verbatim in the final
output (the verbatim splice `\x7b"h":[1, 2]\x7d` differs). -/
theorem c7_counterexample :
    marshal cfgG envHook [] 50 (GoVal.vStruct "H" [GoVal.vJSONMarshaler "[1, 2]"]) =
      some (Except.ok "\x7b\"h\":[1,2]\x7d") ∧
    ¬ ("\x7b\"h\":[1,2]\x7d" : String) = "\x7b\"h\":[1, 2]\x7d" :=
  ⟨rfl, by decide⟩

/-- C7 amended: wherever `encodeValue` meets a `json.Marshaler` value it uses
the hook's output as the JSON value it parses to (so the final bytes are a
re-serialization: JSON-equivalent, not byte-identical), with no group
filtering or structural logic applied inside the subtree - the result does
not depend on the configuration at all - and never omitted; a
`TextMarshaler`'s output is emitted as a JSON string (subject to the
`omitIfEmpty` check on the marshalled text). -/
theorem c7_hook_amended (cfg : Options) (env : TypeEnv) (heap : Heap)
    (fuel depth : Nat) (visited : List Nat) (ident : Option Nat)
    (b txt : String) (z oE oZ : Bool) (j : Jv)
    (hparse : jsonUnmarshal b = some j) :
    encodeValue cfg env heap (fuel + 1) depth visited ident (GoVal.vJSONMarshaler b) oE oZ =
      some (Except.ok (j, false), depth) ∧
    encodeValue cfg env heap (fuel + 1) depth visited ident (GoVal.vTextMarshaler txt z) oE oZ =
      (if oE && txt.length = 0 then some (Except.ok (Jv.jNull, true), depth)
       else some (Except.ok (Jv.jStr txt, false), depth)) := by
  constructor
  · simp only [encodeValue, hparse]
  · rfl

/-- C7 amended, witnessed on the hook bytes `[1, 2]`. -/
theorem c7_hook_amended_witness :
    jsonUnmarshal "[1, 2]" = some (Jv.jArr [Jv.jInt 1, Jv.jInt 2]) ∧
    (encodeValue cfgG envHook [] 7 0 [] none
        (GoVal.vJSONMarshaler "[1, 2]") false false =
      some (Except.ok (Jv.jArr [Jv.jInt 1, Jv.jInt 2], false), 0) ∧
     encodeValue cfgG envHook [] 7 0 [] none
        (GoVal.vTextMarshaler "hi" false) false false =
      (if false && ("hi".length = 0 : Bool) then some (Except.ok (Jv.jNull, true), 0)
       else some (Except.ok (Jv.jStr "hi", false), 0))) :=
  ⟨rfl, c7_hook_amended cfgG envHook [] 6 0 [] none "[1, 2]" "hi" false false false
    (Jv.jArr [Jv.jInt 1, Jv.jInt 2]) rfl⟩

/-! ### C8 -/

/-- C8 counterexample: a field value whose pre-encoding value is not zero
(`underlyingIsZero` is false) but whose `MarshalText` output is empty is
suppressed by `omitIfEmpty` - the suppression decision was made from the
encoded output, not the pre-encoding value, refuting "never from the encoded
output". -/
theorem c8_counterexample :
    underlyingIsZero (GoVal.vTextMarshaler "" false) = false ∧
    marshal cfgG envTextHook [] 50 (GoVal.vStruct "S8" [GoVal.vTextMarshaler "" false]) =
      some (Except.ok "\x7b\x7d") :=
  ⟨rfl, rfl⟩

/-- C8 amended: the suppression decision is made from the pre-encoding value
for scalars (`omitIfEmpty` via `IsZero`, `omitIfZero` via `isZeroScalar`),
nil pointers, and - when the depth limit is not exceeded - slices and maps
(`omitIfEmpty` tests the pre-encoding nil/length-zero state before any
element is encoded); at depth overflow under the truncate policy the cutoff
collection is attached without `omitempty` ever being consulted; and for
`TextMarshaler` values `omitIfEmpty` is decided from the length of the
marshalled text - the encoded output - not from the pre-encoding value. -/
theorem c8_pre_encoding_amended (cfg : Options) (env : TypeEnv) (heap : Heap)
    (fuel depth : Nat) (visited : List Nat) (ident : Option Nat) (oE oZ : Bool) :
    (∀ v, scalarShape v = true →
      encodeValue cfg env heap (fuel + 1) depth visited ident v oE oZ =
        (if oE && reflectIsZero v then some (Except.ok (Jv.jNull, true), depth)
         else if oZ && isZeroScalar v then some (Except.ok (Jv.jNull, true), depth)
         else some (Except.ok (scalarJv v, false), depth))) ∧
    (encodeValue cfg env heap (fuel + 1) depth visited ident (GoVal.vPtr none) oE oZ =
      some (Except.ok (Jv.jNull, oE), depth)) ∧
    (∀ isNil elems, (depth : Int) + 1 ≤ cfg.MaxDepth →
      (isNil || elems.length = 0) = true →
      encodeValue cfg env heap (fuel + 1) depth visited ident
          (GoVal.vSlice isNil elems) true oZ =
        some (Except.ok (Jv.jNull, true), decD (depth + 1))) ∧
    (∀ isNil entries, (depth : Int) + 1 ≤ cfg.MaxDepth →
      (isNil || entries.length = 0) = true →
      encodeValue cfg env heap (fuel + 1) depth visited ident
          (GoVal.vMap isNil entries) true oZ =
        some (Except.ok (Jv.jNull, true), decD (depth + 1))) ∧
    (∀ isNil elems, cfg.MaxDepth < (depth : Int) + 1 →
      cfg.DepthPolicy = DepthPolicy.depthTruncate →
      encodeValue cfg env heap (fuel + 1) depth visited ident
          (GoVal.vSlice isNil elems) oE oZ =
        (if cfg.CutoffCollection = CutoffCollection.cutEmpty then
          some (Except.ok (Jv.jArr [], false), depth + 1)
         else some (Except.ok (Jv.jNull, false), depth + 1))) ∧
    (∀ isNil entries, cfg.MaxDepth < (depth : Int) + 1 →
      cfg.DepthPolicy = DepthPolicy.depthTruncate →
      encodeValue cfg env heap (fuel + 1) depth visited ident
          (GoVal.vMap isNil entries) oE oZ =
        (if cfg.CutoffCollection = CutoffCollection.cutEmpty then
          some (Except.ok (Jv.jObj [], false), depth + 1)
         else some (Except.ok (Jv.jNull, false), depth + 1))) ∧
    (∀ txt z,
      encodeValue cfg env heap (fuel + 1) depth visited ident
          (GoVal.vTextMarshaler txt z) oE oZ =
        (if oE && txt.length = 0 then some (Except.ok (Jv.jNull, true), depth)
         else some (Except.ok (Jv.jStr txt, false), depth))) := by
  refine ⟨?_, rfl, ?_, ?_, ?_, ?_, fun txt z => rfl⟩
  · intro v hv
    cases v <;> first | rfl | simp [scalarShape] at hv
  · intro isNil elems hle hEmpty
    simp only [encodeValue]
    rw [if_neg (not_lt.mpr hle),
      if_pos (show (true && (isNil || elems.length = 0)) = true by
        rw [Bool.true_and]; exact hEmpty)]
  · intro isNil entries hle hEmpty
    simp only [encodeValue]
    rw [if_neg (not_lt.mpr hle),
      if_pos (show (true && (isNil || entries.length = 0)) = true by
        rw [Bool.true_and]; exact hEmpty)]
  · intro isNil elems hgt htr
    simp only [encodeValue]
    rw [if_pos hgt,
      if_neg (show ¬cfg.DepthPolicy = DepthPolicy.depthError by
        rw [htr]; exact fun h => DepthPolicy.noConfusion h)]
  · intro isNil entries hgt htr
    simp only [encodeValue]
    rw [if_pos hgt,
      if_neg (show ¬cfg.DepthPolicy = DepthPolicy.depthError by
        rw [htr]; exact fun h => DepthPolicy.noConfusion h)]

/-- C8 amended, witnessed on a non-zero scalar with `omitIfEmpty` set and on
a nil slice below the depth limit (hypotheses discharged by evaluation). -/
theorem c8_pre_encoding_amended_witness :
    (scalarShape (GoVal.vInt 5) = true) ∧
    (encodeValue cfgG envTextHook [] 8 0 [] none (GoVal.vInt 5) true false =
      (if true && reflectIsZero (GoVal.vInt 5) then some (Except.ok (Jv.jNull, true), 0)
       else if false && isZeroScalar (GoVal.vInt 5) then some (Except.ok (Jv.jNull, true), 0)
       else some (Except.ok (scalarJv (GoVal.vInt 5), false), 0))) ∧
    (((0 : Nat) : Int) + 1 ≤ cfgG.MaxDepth) ∧
    ((true || (([] : List GoVal).length = 0 : Bool)) = true) ∧
    (encodeValue cfgG envTextHook [] 8 0 [] none (GoVal.vSlice true []) true false =
      some (Except.ok (Jv.jNull, true), decD 1)) :=
  ⟨rfl,
    (c8_pre_encoding_amended cfgG envTextHook [] 7 0 [] none true false).1
      (GoVal.vInt 5) rfl,
    by decide,
    rfl,
    (c8_pre_encoding_amended cfgG envTextHook [] 7 0 [] none true false).2.2.1 true []
      (by decide) rfl⟩


/-- With an empty requested group list the field loop skips every descriptor
and returns the accumulator unchanged. -/
theorem encodeFields_skip_empty (cfg : Options) (env : TypeEnv) (heap : Heap)
    (hG : cfg.Groups = []) :
    ∀ (fields : List fieldInfo) (fuel depth : Nat) (visited : List Nat) (sv : GoVal)
      (acc : List (String × Jv)),
      fields.length + 1 ≤ fuel →
      encodeFields cfg env heap fuel depth visited sv fields acc =
        some (Except.ok acc, depth) := by
  intro fields
  induction fields with
  | nil =>
    intro fuel depth visited sv acc hf
    obtain ⟨k, rfl⟩ : ∃ k, fuel = k + 1 := ⟨fuel - 1, by omega⟩
    simp [encodeFields]
  | cons fld rest ih =>
    intro fuel depth visited sv acc hf
    obtain ⟨k, rfl⟩ : ∃ k, fuel = k + 1 := ⟨fuel - 1, by omega⟩
    have hEmp : cfg.Groups.isEmpty = true := by rw [hG]; rfl
    simp only [encodeFields, hEmp, if_true]
    have hk : rest.length + 1 ≤ k := by
      simp only [List.length_cons] at hf
      omega
    exact ih k depth visited sv acc hk

/-- Unfolding step: `encodeStruct` on a non-addressable struct below the
depth limit resolves the schema and runs the field loop. -/
theorem encodeStruct_ok_none_ident (cfg : Options) (env : TypeEnv) (heap : Heap)
    (fuel d d2 : Nat) (vis : List Nat) (ty : String) (fvals : List GoVal)
    (sch : schema) (out : List (String × Jv))
    (hd : (d : Int) + 1 ≤ cfg.MaxDepth)
    (hsch : getSchema env cfg.TagKey ty fuel = some sch)
    (hf : encodeFields cfg env heap fuel (d + 1) vis (GoVal.vStruct ty fvals)
        sch.fields [] = some (Except.ok out, d2)) :
    encodeStruct cfg env heap (fuel + 1) d vis none ty fvals =
      some (Except.ok (some out), decD d2) := by
  simp only [encodeStruct]
  rw [if_neg (not_lt.mpr hd)]
  simp only [Bool.false_eq_true, if_false, hsch, hf]

/-- Unfolding step: a struct root returns the struct-encoding result map. -/
theorem marshalRoot_struct_ok (cfg : Options) (env : TypeEnv) (heap : Heap)
    (fuel d2 : Nat) (ident : Option Nat) (ty : String) (fs : List GoVal)
    (m : Option (List (String × Jv)))
    (hv : encodeStruct cfg env heap fuel 0 [] ident ty fs = some (Except.ok m, d2)) :
    marshalRoot cfg env heap (fuel + 1) ident (GoVal.vStruct ty fs) =
      some (Except.ok m) := by
  simp only [marshalRoot, hv]

/-- Unfolding step: with no top-level wrapper key, `Marshal` serializes the
result map directly. -/
theorem marshal_of_ok (cfg : Options) (env : TypeEnv) (heap : Heap)
    (fuel : Nat) (v : GoVal) (m : Option (List (String × Jv)))
    (hm : marshalToMap cfg env heap fuel v = some (Except.ok m))
    (htlk : cfg.TopLevelKey = "") :
    marshal cfg env heap fuel v = some (Except.ok (jvEnc cfg.EscapeHTML (structJv m))) := by
  simp only [marshal, hm, htlk, if_pos]

/-! ### C9 -/

/-- C9: for every record value and every configuration with an empty
requested group list (and a positive depth limit, as the data model
requires), `MarshalToMap` succeeds with the empty record, and `Marshal`
(without a wrapper key) emits `\x7b\x7d` - regardless of what groups the record's
fields declare. -/
theorem c9_empty_request_empty_object
    (cfg : Options) (env : TypeEnv) (heap : Heap) (ty : String) (fvals : List GoVal)
    (sch : schema) (fuel : Nat)
    (hG : cfg.Groups = [])
    (hdep : 1 ≤ cfg.MaxDepth)
    (hsch : getSchema env cfg.TagKey ty fuel = some sch)
    (hfuel : sch.fields.length + 1 ≤ fuel) :
    marshalToMap cfg env heap (fuel + 2) (GoVal.vStruct ty fvals) =
      some (Except.ok (some [])) ∧
    (cfg.TopLevelKey = "" →
      marshal cfg env heap (fuel + 2) (GoVal.vStruct ty fvals) =
        some (Except.ok "\x7b\x7d")) := by
  have hf : encodeFields cfg env heap fuel 1 [] (GoVal.vStruct ty fvals) sch.fields [] =
      some (Except.ok [], 1) :=
    encodeFields_skip_empty cfg env heap hG sch.fields fuel 1 [] _ [] hfuel
  have hs : encodeStruct cfg env heap (fuel + 1) 0 [] none ty fvals =
      some (Except.ok (some []), 0) :=
    encodeStruct_ok_none_ident cfg env heap fuel 0 1 [] ty fvals sch []
      (by omega) hsch hf
  have hroot : marshalToMap cfg env heap (fuel + 2) (GoVal.vStruct ty fvals) =
      some (Except.ok (some [])) :=
    marshalRoot_struct_ok cfg env heap (fuel + 1) 0 none ty fvals (some []) hs
  refine ⟨hroot, fun htlk => ?_⟩
  have := marshal_of_ok cfg env heap (fuel + 2) (GoVal.vStruct ty fvals) (some []) hroot htlk
  rw [this]
  rfl

/-- C9, witnessed on `User` with the default options (empty group request). -/
theorem c9_empty_request_empty_object_witness :
    (DefaultOptions.Groups = []) ∧ (1 ≤ DefaultOptions.MaxDepth) ∧
    (getSchema envUser DefaultOptions.TagKey "User" 10 = some schemaUser) ∧
    (schemaUser.fields.length + 1 ≤ 10) ∧
    (marshalToMap DefaultOptions envUser [] (10 + 2) userAlice =
      some (Except.ok (some [])) ∧
     (DefaultOptions.TopLevelKey = "" →
      marshal DefaultOptions envUser [] (10 + 2) userAlice =
        some (Except.ok "\x7b\x7d"))) :=
  ⟨rfl, by decide, rfl, by decide,
    c9_empty_request_empty_object DefaultOptions envUser []
      "User" [GoVal.vInt 1, GoVal.vStr "Alice", GoVal.vStr "a@x", GoVal.vStr "p"]
      schemaUser 10 rfl (by decide) rfl (by decide)⟩

/-- Serialization of a one-member object under the fixed key `data`. -/
theorem jvEnc_obj_data (esc : Bool) (x : Jv) :
    jvEnc esc (Jv.jObj [("data", x)]) = "\x7b\"data\":" ++ jvEnc esc x ++ "\x7d" := by
  cases esc <;>
  · show "\x7b" ++ ("\"data\":" ++ jvEnc _ x) ++ "\x7d" = _
    rw [← String.append_assoc]
    rfl

/-! ### C10 -/

/-- C10: for every slice/array root under a configuration with
`AllowSliceInput` enabled, whenever the element encoding succeeds
`MarshalToMap` returns an object with exactly one key, the fixed string
`data`, holding the encoded sequence; accordingly `Marshal` (without a
top-level wrapper key) emits a JSON object wrapping the array under
`data`. -/
theorem c10_slice_data_wrap
    (cfg : Options) (env : TypeEnv) (heap : Heap) (isNil : Bool) (elems : List GoVal)
    (fuel d : Nat) (r : Option (List Jv))
    (hallow : cfg.AllowSliceInput = true)
    (henc : encodeSlice cfg env heap fuel 0 [] isNil elems = some (Except.ok r, d)) :
    marshalToMap cfg env heap (fuel + 1) (GoVal.vSlice isNil elems) =
      some (Except.ok (some [("data", sliceJv r)])) ∧
    (cfg.TopLevelKey = "" →
      marshal cfg env heap (fuel + 1) (GoVal.vSlice isNil elems) =
        some (Except.ok ("\x7b\"data\":" ++ jvEnc cfg.EscapeHTML (sliceJv r) ++ "\x7d"))) := by
  have hroot : marshalToMap cfg env heap (fuel + 1) (GoVal.vSlice isNil elems) =
      some (Except.ok (some [("data", sliceJv r)])) := by
    show marshalRoot cfg env heap (fuel + 1) none (GoVal.vSlice isNil elems) =
      some (Except.ok (some [("data", sliceJv r)]))
    simp only [marshalRoot, hallow, henc, Bool.true_eq_false, if_false]
  refine ⟨hroot, fun htlk => ?_⟩
  rw [marshal_of_ok cfg env heap (fuel + 1) _ _ hroot htlk]
  simp only [structJv, jvEnc_obj_data]

/-- C10, witnessed on a one-element `User` slice. -/
theorem c10_slice_data_wrap_witness :
    (cfgSlice.AllowSliceInput = true) ∧
    (encodeSlice cfgSlice envUser [] 40 0 [] false [userAlice] =
      some (Except.ok (some [Jv.jObj [("id", Jv.jInt 1), ("name", Jv.jStr "Alice")]]), 0)) ∧
    (marshalToMap cfgSlice envUser [] (40 + 1) (GoVal.vSlice false [userAlice]) =
      some (Except.ok (some [("data",
        sliceJv (some [Jv.jObj [("id", Jv.jInt 1), ("name", Jv.jStr "Alice")]]))])) ∧
     (cfgSlice.TopLevelKey = "" →
      marshal cfgSlice envUser [] (40 + 1) (GoVal.vSlice false [userAlice]) =
        some (Except.ok ("\x7b\"data\":" ++ jvEnc cfgSlice.EscapeHTML
          (sliceJv (some [Jv.jObj [("id", Jv.jInt 1), ("name", Jv.jStr "Alice")]])) ++
          "\x7d")))) :=
  ⟨rfl, rfl,
    c10_slice_data_wrap cfgSlice envUser [] false [userAlice] 40 0
      (some [Jv.jObj [("id", Jv.jInt 1), ("name", Jv.jStr "Alice")]]) rfl rfl⟩


/-! ### C1 machinery -/

/-- Encoding a scalar field value with both omit flags off returns the scalar
itself and does not touch the depth. -/
theorem encodeValue_scalar (cfg : Options) (env : TypeEnv) (heap : Heap)
    (fuel depth : Nat) (visited : List Nat) (ident : Option Nat) (v : GoVal)
    (hs : scalarShape v = true) :
    encodeValue cfg env heap (fuel + 1) depth visited ident v false false =
      some (Except.ok (scalarJv v, false), depth) := by
  cases v <;> simp_all [encodeValue, scalarShape, scalarJv]

/-- OR mode characterization of the visibility filter: selected iff the
field's declared groups intersect the request. -/
theorem includeField_or_iff (cfg : Options) (fg : List String)
    (hne : cfg.Groups ≠ []) (hmode : cfg.Mode = GroupMode.modeOr) :
    (includeField cfg fg = true ↔ ∃ g ∈ fg, g ∈ cfg.Groups) := by
  unfold includeField
  rw [groups_isEmpty_false hne, hmode]
  simp only [Bool.false_eq_true, if_false, List.any_eq_true, decide_eq_true_eq]
  constructor
  · rintro ⟨g, hg, x, hx, rfl⟩
    exact ⟨x, hx, hg⟩
  · rintro ⟨g, hgf, hgG⟩
    exact ⟨g, hgG, g, hgf, rfl⟩

/-- AND mode characterization of the visibility filter: selected iff every
requested group is among the field's declared groups. -/
theorem includeField_and_iff (cfg : Options) (fg : List String)
    (hne : cfg.Groups ≠ []) (hmode : cfg.Mode = GroupMode.modeAnd) :
    (includeField cfg fg = true ↔ ∀ g ∈ cfg.Groups, g ∈ fg) := by
  unfold includeField
  rw [groups_isEmpty_false hne, hmode]
  simp only [Bool.false_eq_true, if_false, List.all_eq_true, List.any_eq_true,
    decide_eq_true_eq]
  constructor
  · intro h g hg
    obtain ⟨x, hx, rfl⟩ := h g hg
    exact hx
  · intro h g hg
    exact ⟨g, h g hg, rfl⟩

/-- Unfolding step: the field loop skips a field the filter excludes. -/
theorem encodeFields_cons_skip (cfg : Options) (env : TypeEnv) (heap : Heap)
    (hEmp : cfg.Groups.isEmpty = false)
    (fld : fieldInfo) (rest : List fieldInfo) (fuel depth : Nat)
    (visited : List Nat) (sv : GoVal) (acc : List (String × Jv))
    (hinc : includeField cfg fld.groups = false) :
    encodeFields cfg env heap (fuel + 1) depth visited sv (fld :: rest) acc =
      encodeFields cfg env heap fuel depth visited sv rest acc := by
  simp only [encodeFields, hEmp, Bool.false_eq_true, if_false, hinc, Bool.not_false, if_true]

/-- Unfolding step: the field loop attaches a selected, non-omitted field
under its emitted name and continues. -/
theorem encodeFields_cons_take (cfg : Options) (env : TypeEnv) (heap : Heap)
    (hEmp : cfg.Groups.isEmpty = false)
    (fld : fieldInfo) (rest : List fieldInfo) (fuel depth d2 : Nat)
    (visited : List Nat) (sv : GoVal) (acc : List (String × Jv)) (val : Jv)
    (hinc : includeField cfg fld.groups = true)
    (hv : encodeValue cfg env heap fuel depth visited (fieldByIndex heap sv none fld.index).2
        (fieldByIndex heap sv none fld.index).1 fld.omitEmpty fld.omitZero =
      some (Except.ok (val, false), d2)) :
    encodeFields cfg env heap (fuel + 1) depth visited sv (fld :: rest) acc =
      encodeFields cfg env heap fuel d2 visited sv rest (acc ++ [(fld.jsonName, val)]) := by
  simp only [encodeFields, hEmp, Bool.false_eq_true, if_false, hinc, Bool.not_true, hv]

/-- The field loop on a flat record (scalar-resolvable fields, no omit
flags): the output is exactly the filtered fields, in schema order, with
their scalar values. -/
theorem encodeFields_flat (cfg : Options) (env : TypeEnv) (heap : Heap) (sv : GoVal)
    (hG : cfg.Groups ≠ []) :
    ∀ (fields : List fieldInfo) (fuel depth : Nat) (visited : List Nat)
      (acc : List (String × Jv)),
      (∀ fld ∈ fields, scalarShape (fieldByIndex heap sv none fld.index).1 = true ∧
          fld.omitEmpty = false ∧ fld.omitZero = false) →
      fields.length + 2 ≤ fuel →
      encodeFields cfg env heap fuel depth visited sv fields acc =
        some (Except.ok (acc ++
          (fields.filter (fun f => includeField cfg f.groups)).map
            (fun f => (f.jsonName, scalarJv (fieldByIndex heap sv none f.index).1))), depth) := by
  intro fields
  induction fields with
  | nil =>
    intro fuel depth visited acc hflat hfuel
    obtain ⟨k, rfl⟩ : ∃ k, fuel = k + 1 := ⟨fuel - 1, by omega⟩
    simp [encodeFields]
  | cons fld rest ih =>
    intro fuel depth visited acc hflat hfuel
    obtain ⟨k2, rfl⟩ : ∃ k2, fuel = k2 + 1 + 1 := ⟨fuel - 2, by omega⟩
    have hk2 : rest.length + 2 ≤ k2 + 1 := by
      simp only [List.length_cons] at hfuel
      omega
    have hEmp := groups_isEmpty_false hG
    obtain ⟨hsc, hoE, hoZ⟩ := hflat fld (List.mem_cons_self _ _)
    have hrest : ∀ f ∈ rest, scalarShape (fieldByIndex heap sv none f.index).1 = true ∧
        f.omitEmpty = false ∧ f.omitZero = false :=
      fun f hf => hflat f (List.mem_cons_of_mem _ hf)
    cases hinc : includeField cfg fld.groups with
    | false =>
      rw [encodeFields_cons_skip cfg env heap hEmp fld rest (k2 + 1) depth visited sv acc hinc,
        ih (k2 + 1) depth visited acc hrest hk2]
      simp [List.filter_cons, hinc]
    | true =>
      have hv : encodeValue cfg env heap (k2 + 1) depth visited
          (fieldByIndex heap sv none fld.index).2
          (fieldByIndex heap sv none fld.index).1 fld.omitEmpty fld.omitZero =
          some (Except.ok (scalarJv (fieldByIndex heap sv none fld.index).1, false), depth) := by
        rw [hoE, hoZ]
        exact encodeValue_scalar cfg env heap k2 depth visited _ _ hsc
      rw [encodeFields_cons_take cfg env heap hEmp fld rest (k2 + 1) depth depth visited sv acc
        _ hinc hv,
        ih (k2 + 1) depth visited
          (acc ++ [(fld.jsonName, scalarJv (fieldByIndex heap sv none fld.index).1)]) hrest hk2]
      simp [List.filter_cons, hinc]

/-- In a schema with no duplicate emitted names, a field's name survives a
filter exactly when the filter accepts that field. -/
theorem name_mem_filter_iff (p : fieldInfo → Bool) :
    ∀ (fields : List fieldInfo), (fields.map fieldInfo.jsonName).Nodup →
      ∀ fld ∈ fields,
        (fld.jsonName ∈ (fields.filter p).map fieldInfo.jsonName ↔ p fld = true) := by
  intro fields
  induction fields with
  | nil =>
    intro _ fld h
    cases h
  | cons f0 rest ih =>
    intro hnd fld hmem
    simp only [List.map_cons, List.nodup_cons] at hnd
    obtain ⟨hf0, hndr⟩ := hnd
    rcases List.mem_cons.mp hmem with rfl | hmemr
    · cases hp : p fld with
      | true => simp [List.filter_cons, hp]
      | false =>
        simp only [List.filter_cons, hp, Bool.false_eq_true, if_false]
        constructor
        · intro hin
          obtain ⟨f, hfmem, heq⟩ := List.mem_map.mp hin
          exact absurd (heq ▸ List.mem_map_of_mem fieldInfo.jsonName
            (List.mem_of_mem_filter hfmem)) hf0
        · intro h
          cases h
    · have hnamer : fld.jsonName ∈ rest.map fieldInfo.jsonName :=
        List.mem_map_of_mem fieldInfo.jsonName hmemr
      have hne : fld.jsonName ≠ f0.jsonName := by
        intro he
        exact hf0 (he ▸ hnamer)
      cases hp0 : p f0 with
      | true =>
        simp only [List.filter_cons, hp0, if_true, List.map_cons, List.mem_cons]
        rw [or_iff_right hne]
        exact ih hndr fld hmemr
      | false =>
        simp only [List.filter_cons, hp0, Bool.false_eq_true, if_false]
        exact ih hndr fld hmemr

/-! ### C1 -/

/-- C1: for every flat record value (scalar-resolvable fields without omit
flags, distinct emitted names) and every non-empty requested group list, a
field's name appears in the encoded record iff the visibility filter selects
it: in OR mode iff its declared groups intersect the request, in AND mode iff
every requested group is among its declared groups. -/
theorem c1_group_filter_semantics
    (cfg : Options) (env : TypeEnv) (heap : Heap)
    (ty : String) (fvals : List GoVal) (sch : schema) (fuel : Nat)
    (hG : cfg.Groups ≠ [])
    (hdep : 1 ≤ cfg.MaxDepth)
    (hsch : getSchema env cfg.TagKey ty fuel = some sch)
    (hfuel : sch.fields.length + 2 ≤ fuel)
    (hflat : ∀ fld ∈ sch.fields,
      scalarShape (fieldByIndex heap (GoVal.vStruct ty fvals) none fld.index).1 = true ∧
      fld.omitEmpty = false ∧ fld.omitZero = false)
    (hnodup : (sch.fields.map fieldInfo.jsonName).Nodup) :
    ∃ out, encodeStruct cfg env heap (fuel + 1) 0 [] none ty fvals =
        some (Except.ok (some out), 0) ∧
      ∀ fld ∈ sch.fields,
        (cfg.Mode = GroupMode.modeOr →
          ((fld.jsonName ∈ out.map Prod.fst) ↔ ∃ g ∈ fld.groups, g ∈ cfg.Groups)) ∧
        (cfg.Mode = GroupMode.modeAnd →
          ((fld.jsonName ∈ out.map Prod.fst) ↔ ∀ g ∈ cfg.Groups, g ∈ fld.groups)) := by
  refine ⟨(sch.fields.filter (fun f => includeField cfg f.groups)).map
      (fun f => (f.jsonName,
        scalarJv (fieldByIndex heap (GoVal.vStruct ty fvals) none f.index).1)), ?_, ?_⟩
  · have hf := encodeFields_flat cfg env heap (GoVal.vStruct ty fvals) hG sch.fields
      fuel 1 [] [] hflat hfuel
    rw [List.nil_append] at hf
    exact encodeStruct_ok_none_ident cfg env heap fuel 0 1 [] ty fvals sch _
      (by omega) hsch hf
  · intro fld hmem
    have hkey : ((sch.fields.filter (fun f => includeField cfg f.groups)).map
        (fun f => (f.jsonName,
          scalarJv (fieldByIndex heap (GoVal.vStruct ty fvals) none f.index).1))).map
          Prod.fst =
        (sch.fields.filter (fun f => includeField cfg f.groups)).map fieldInfo.jsonName := by
      rw [List.map_map]
      rfl
    constructor
    · intro hmode
      rw [hkey, name_mem_filter_iff _ sch.fields hnodup fld hmem,
        includeField_or_iff cfg fld.groups hG hmode]
    · intro hmode
      rw [hkey, name_mem_filter_iff _ sch.fields hnodup fld hmem,
        includeField_and_iff cfg fld.groups hG hmode]

/-- C1, witnessed on the `User` record with the `public` request in OR
mode. -/
theorem c1_group_filter_semantics_witness :
    (cfgPublic.Groups ≠ []) ∧ (1 ≤ cfgPublic.MaxDepth) ∧
    (getSchema envUser cfgPublic.TagKey "User" 10 = some schemaUser) ∧
    (schemaUser.fields.length + 2 ≤ 10) ∧
    (∀ fld ∈ schemaUser.fields,
      scalarShape (fieldByIndex []
        (GoVal.vStruct "User"
          [GoVal.vInt 1, GoVal.vStr "Alice", GoVal.vStr "a@x", GoVal.vStr "p"])
        none fld.index).1 = true ∧
      fld.omitEmpty = false ∧ fld.omitZero = false) ∧
    ((schemaUser.fields.map fieldInfo.jsonName).Nodup) ∧
    (∃ out, encodeStruct cfgPublic envUser [] (10 + 1) 0 [] none "User"
        [GoVal.vInt 1, GoVal.vStr "Alice", GoVal.vStr "a@x", GoVal.vStr "p"] =
        some (Except.ok (some out), 0) ∧
      ∀ fld ∈ schemaUser.fields,
        (cfgPublic.Mode = GroupMode.modeOr →
          ((fld.jsonName ∈ out.map Prod.fst) ↔ ∃ g ∈ fld.groups, g ∈ cfgPublic.Groups)) ∧
        (cfgPublic.Mode = GroupMode.modeAnd →
          ((fld.jsonName ∈ out.map Prod.fst) ↔ ∀ g ∈ cfgPublic.Groups, g ∈ fld.groups))) :=
  ⟨by decide, by decide, rfl, by decide, by decide, by decide,
    c1_group_filter_semantics cfgPublic envUser [] "User"
      [GoVal.vInt 1, GoVal.vStr "Alice", GoVal.vStr "a@x", GoVal.vStr "p"]
      schemaUser 10 (by decide) (by decide) rfl (by decide) (by decide) (by decide)⟩

/-! ### C6: name collisions under anonymous embedding

`buildSchema` drops a field descriptor whenever its emitted name is already
in `seen`; the lemmas below track one name `n` through `procFields` and the
BFS loop.  `procFields_seen`: once `n` is in `seen`, no further descriptor
for `n` is ever appended.  `procFields_first`: when `n` is not yet seen,
processing a field list appends exactly the descriptor of the first visible
field emitting `n`, and marks `n` seen.  `bfsBuild_seen` carries the first
fact over the remaining queue. -/

/-- Once `n` is in `seen`, `procFields` appends no descriptor emitting `n`,
and `n` stays in `seen`. -/
theorem procFields_seen (tagKey : String) (base : List Nat) (qd : Nat) (n : String)
    (flds : List GoStructField) :
    ∀ (i : Nat) (out : List fieldInfo) (seen : List String) (newQ : List queueItem),
      seen.contains n = true →
      (procFields tagKey base qd flds i out seen newQ).1.filter
          (fun fi => fi.jsonName = n) = out.filter (fun fi => fi.jsonName = n) ∧
      (procFields tagKey base qd flds i out seen newQ).2.1.contains n = true := by
  induction flds with
  | nil =>
    intro i out seen newQ hs
    exact ⟨rfl, hs⟩
  | cons sf rest ih =>
    intro i out seen newQ hs
    simp only [procFields]
    split
    next h1 => exact ih (i + 1) out seen newQ hs
    next h1 =>
      split
      next h2 => exact ih (i + 1) out seen newQ hs
      next h2 =>
        split
        next st heq =>
          split
          next h3 => exact ih (i + 1) out seen _ hs
          next h3 =>
            rw [show (if 0 < ((splitComma (tagGet sf.tags "json")).headD "").length then
                (splitComma (tagGet sf.tags "json")).headD "" else sf.name)
              = emitNameOf sf from rfl]
            split
            next h4 => exact ih (i + 1) out seen newQ hs
            next h4 =>
              have h4' : seen.contains (emitNameOf sf) = false := by
                cases hcc : seen.contains (emitNameOf sf) with
                | false => rfl
                | true => exact absurd hcc h4
              have hne : emitNameOf sf ≠ n := by
                intro he
                rw [he, hs] at h4'
                cases h4'
              have hs' : (emitNameOf sf :: seen).contains n = true := by
                rw [List.contains_cons, hs, Bool.or_true]
              obtain ⟨hA, hB⟩ := ih (i + 1) (out ++ [mkFieldInfo tagKey base i sf])
                (emitNameOf sf :: seen) newQ hs'
              refine ⟨hA.trans ?_, hB⟩
              rw [List.filter_append]
              simp [mkFieldInfo, hne]
        next heq =>
          rw [show (if 0 < ((splitComma (tagGet sf.tags "json")).headD "").length then
              (splitComma (tagGet sf.tags "json")).headD "" else sf.name)
            = emitNameOf sf from rfl]
          split
          next h4 => exact ih (i + 1) out seen newQ hs
          next h4 =>
            have h4' : seen.contains (emitNameOf sf) = false := by
              cases hcc : seen.contains (emitNameOf sf) with
              | false => rfl
              | true => exact absurd hcc h4
            have hne : emitNameOf sf ≠ n := by
              intro he
              rw [he, hs] at h4'
              cases h4'
            have hs' : (emitNameOf sf :: seen).contains n = true := by
              rw [List.contains_cons, hs, Bool.or_true]
            obtain ⟨hA, hB⟩ := ih (i + 1) (out ++ [mkFieldInfo tagKey base i sf])
              (emitNameOf sf :: seen) newQ hs'
            refine ⟨hA.trans ?_, hB⟩
            rw [List.filter_append]
            simp [mkFieldInfo, hne]

/-- `firstEmit` takes the head when it is visible and emits `n`. -/
theorem firstEmit_cons_hit (n : String) (sf : GoStructField) (rest : List GoStructField)
    (i : Nat) (hv : fieldVisible sf = true) (hn : emitNameOf sf = n) :
    firstEmit n (sf :: rest) i = some (i, sf) := by
  simp [firstEmit, hv, hn]

/-- `firstEmit` skips the head when it is invisible or emits another name. -/
theorem firstEmit_cons_miss (n : String) (sf : GoStructField) (rest : List GoStructField)
    (i : Nat) (h : fieldVisible sf = false ∨ emitNameOf sf ≠ n) :
    firstEmit n (sf :: rest) i = firstEmit n rest (i + 1) := by
  rcases h with h | h <;> simp [firstEmit, h]

/-- When `n` is not yet seen and the first visible field emitting `n` in
`flds` (scanning from position `i`) is `sfj` at position `j`, `procFields`
appends exactly `mkFieldInfo tagKey base j sfj` as the unique new descriptor
for `n`, and marks `n` seen. -/
theorem procFields_first (tagKey : String) (base : List Nat) (qd : Nat) (n : String)
    (flds : List GoStructField) :
    ∀ (i : Nat) (out : List fieldInfo) (seen : List String) (newQ : List queueItem)
      (j : Nat) (sfj : GoStructField),
      seen.contains n = false →
      firstEmit n flds i = some (j, sfj) →
      (procFields tagKey base qd flds i out seen newQ).1.filter
          (fun fi => fi.jsonName = n)
        = out.filter (fun fi => fi.jsonName = n) ++ [mkFieldInfo tagKey base j sfj] ∧
      (procFields tagKey base qd flds i out seen newQ).2.1.contains n = true := by
  induction flds with
  | nil =>
    intro i out seen newQ j sfj hs hfirst
    cases hfirst
  | cons sf rest ih =>
    intro i out seen newQ j sfj hs hfirst
    simp only [procFields]
    split
    next h1 =>
      have hv : fieldVisible sf = false := by
        simp only [fieldVisible, h1, Bool.false_and]
      rw [firstEmit_cons_miss n sf rest i (Or.inl hv)] at hfirst
      exact ih (i + 1) out seen newQ j sfj hs hfirst
    next h1 =>
      have h1' : sf.exported = true := by
        cases hcc : sf.exported with
        | false => exact absurd hcc h1
        | true => rfl
      split
      next h2 =>
        have hv : fieldVisible sf = false := by
          simp only [fieldVisible, h2, eq_self_iff_true, decide_True, Bool.not_true,
            Bool.and_false, Bool.false_and]
        rw [firstEmit_cons_miss n sf rest i (Or.inl hv)] at hfirst
        exact ih (i + 1) out seen newQ j sfj hs hfirst
      next h2 =>
        split
        next st heq =>
          split
          next h3 =>
            have hv : fieldVisible sf = false := by
              simp only [fieldVisible, h3.1, h3.2, heq, Option.isSome_some,
                eq_self_iff_true, decide_True, Bool.true_and, Bool.and_true,
                Bool.not_true, Bool.and_false]
            rw [firstEmit_cons_miss n sf rest i (Or.inl hv)] at hfirst
            exact ih (i + 1) out seen _ j sfj hs hfirst
          next h3 =>
            have hv : fieldVisible sf = true := by
              cases ha : sf.anonymous with
              | false =>
                simp only [fieldVisible, h1', ha, Bool.true_and, Bool.false_and,
                  Bool.not_false, Bool.and_true]
                simp [h2]
              | true =>
                have hlen : ¬((splitComma (tagGet sf.tags "json")).headD "").length = 0 :=
                  fun hl => h3 ⟨ha, hl⟩
                simp only [fieldVisible, h1', ha, heq, Option.isSome_some,
                  Bool.true_and, decide_eq_false hlen, Bool.and_false,
                  Bool.not_false, Bool.and_true]
                simp [h2]
            rw [show (if 0 < ((splitComma (tagGet sf.tags "json")).headD "").length then
                (splitComma (tagGet sf.tags "json")).headD "" else sf.name)
              = emitNameOf sf from rfl]
            split
            next h4 =>
              have h4' : seen.contains (emitNameOf sf) = true := h4
              have hn : emitNameOf sf ≠ n := by
                intro he
                rw [he, hs] at h4'
                cases h4'
              rw [firstEmit_cons_miss n sf rest i (Or.inr hn)] at hfirst
              exact ih (i + 1) out seen newQ j sfj hs hfirst
            next h4 =>
              by_cases hn : emitNameOf sf = n
              · rw [firstEmit_cons_hit n sf rest i hv hn] at hfirst
                obtain ⟨hj, hsf⟩ : i = j ∧ sf = sfj := by simpa using hfirst
                subst hj
                subst hsf
                have hs' : (emitNameOf sf :: seen).contains n = true := by
                  rw [List.contains_cons,
                    show (n == emitNameOf sf) = true from beq_iff_eq.mpr hn.symm,
                    Bool.true_or]
                obtain ⟨hA, hB⟩ := procFields_seen tagKey base qd n rest (i + 1)
                  (out ++ [mkFieldInfo tagKey base i sf]) (emitNameOf sf :: seen) newQ hs'
                refine ⟨hA.trans ?_, hB⟩
                rw [List.filter_append]
                simp [mkFieldInfo, hn]
              · rw [firstEmit_cons_miss n sf rest i (Or.inr hn)] at hfirst
                have hne : ¬(n = emitNameOf sf) := fun he => hn he.symm
                have hs' : (emitNameOf sf :: seen).contains n = false := by
                  rw [List.contains_cons, hs, beq_eq_false_iff_ne.mpr hne, Bool.or_false]
                obtain ⟨hA, hB⟩ := ih (i + 1) (out ++ [mkFieldInfo tagKey base i sf])
                  (emitNameOf sf :: seen) newQ j sfj hs' hfirst
                refine ⟨hA.trans ?_, hB⟩
                rw [List.filter_append]
                simp [mkFieldInfo, hn]
        next heq =>
          have hv : fieldVisible sf = true := by
            simp only [fieldVisible, h1', heq, Option.isSome_none, Bool.and_false,
              Bool.false_and, Bool.not_false, Bool.and_true, Bool.true_and]
            simp [h2]
          rw [show (if 0 < ((splitComma (tagGet sf.tags "json")).headD "").length then
              (splitComma (tagGet sf.tags "json")).headD "" else sf.name)
            = emitNameOf sf from rfl]
          split
          next h4 =>
            have h4' : seen.contains (emitNameOf sf) = true := h4
            have hn : emitNameOf sf ≠ n := by
              intro he
              rw [he, hs] at h4'
              cases h4'
            rw [firstEmit_cons_miss n sf rest i (Or.inr hn)] at hfirst
            exact ih (i + 1) out seen newQ j sfj hs hfirst
          next h4 =>
            by_cases hn : emitNameOf sf = n
            · rw [firstEmit_cons_hit n sf rest i hv hn] at hfirst
              obtain ⟨hj, hsf⟩ : i = j ∧ sf = sfj := by simpa using hfirst
              subst hj
              subst hsf
              have hs' : (emitNameOf sf :: seen).contains n = true := by
                rw [List.contains_cons,
                  show (n == emitNameOf sf) = true from beq_iff_eq.mpr hn.symm,
                  Bool.true_or]
              obtain ⟨hA, hB⟩ := procFields_seen tagKey base qd n rest (i + 1)
                (out ++ [mkFieldInfo tagKey base i sf]) (emitNameOf sf :: seen) newQ hs'
              refine ⟨hA.trans ?_, hB⟩
              rw [List.filter_append]
              simp [mkFieldInfo, hn]
            · rw [firstEmit_cons_miss n sf rest i (Or.inr hn)] at hfirst
              have hne : ¬(n = emitNameOf sf) := fun he => hn he.symm
              have hs' : (emitNameOf sf :: seen).contains n = false := by
                rw [List.contains_cons, hs, beq_eq_false_iff_ne.mpr hne, Bool.or_false]
              obtain ⟨hA, hB⟩ := ih (i + 1) (out ++ [mkFieldInfo tagKey base i sf])
                (emitNameOf sf :: seen) newQ j sfj hs' hfirst
              refine ⟨hA.trans ?_, hB⟩
              rw [List.filter_append]
              simp [mkFieldInfo, hn]

/-- Once `n` is in `seen`, the rest of the BFS adds no descriptor emitting
`n`: the final field list filters to the same descriptors for `n` as the
accumulator. -/
theorem bfsBuild_seen (env : TypeEnv) (tagKey n : String) :
    ∀ (fuel : Nat) (q : List queueItem) (out : List fieldInfo) (seen : List String)
      (res : List fieldInfo),
      seen.contains n = true →
      bfsBuild env tagKey fuel q out seen = some res →
      res.filter (fun fi => fi.jsonName = n) = out.filter (fun fi => fi.jsonName = n) := by
  intro fuel
  induction fuel with
  | zero =>
    intro q out seen res hs hb
    cases q with
    | nil =>
      simp only [bfsBuild, Option.some.injEq] at hb
      rw [← hb]
    | cons it rest =>
      simp only [bfsBuild] at hb
      cases hb
  | succ k ih =>
    intro q out seen res hs hb
    cases q with
    | nil =>
      simp only [bfsBuild, Option.some.injEq] at hb
      rw [← hb]
    | cons it rest =>
      simp only [bfsBuild] at hb
      cases hl : List.lookup it.tyName env with
      | none =>
        rw [hl] at hb
        exact ih rest out seen res hs hb
      | some flds =>
        rw [hl] at hb
        obtain ⟨hf, hc⟩ := procFields_seen tagKey it.index it.depth n flds 0 out seen [] hs
        have hres := ih (rest ++ (procFields tagKey it.index it.depth flds 0 out seen []).2.2)
          (procFields tagKey it.index it.depth flds 0 out seen []).1
          (procFields tagKey it.index it.depth flds 0 out seen []).2.1 res hc hb
        rw [hres, hf]

/-- Assembled: when the root struct type directly declares a visible field
emitting `n` (the first such being `sf` at declaration position `j`), the
built schema holds exactly one descriptor for `n` - that direct field, at
index path `[j]` - regardless of what any anonymously embedded struct
declares. -/
theorem buildSchema_first (env : TypeEnv) (tagKey t n : String)
    (flds : List GoStructField) (j : Nat) (sf : GoStructField) (fuel : Nat) (sch : schema)
    (hlook : List.lookup t env = some flds)
    (hfirst : firstEmit n flds 0 = some (j, sf))
    (hsch : buildSchema env tagKey t fuel = some sch) :
    sch.fields.filter (fun fi => fi.jsonName = n) = [mkFieldInfo tagKey [] j sf] := by
  cases fuel with
  | zero =>
    simp [buildSchema, bfsBuild] at hsch
  | succ k =>
    simp only [buildSchema] at hsch
    cases hb : bfsBuild env tagKey (k + 1) [⟨t, [], 0⟩] [] [] with
    | none =>
      rw [hb] at hsch
      exact Option.noConfusion hsch
    | some outf =>
      rw [hb] at hsch
      have hsch' : schema.mk outf = sch := Option.some.inj hsch
      have hb2 : bfsBuild env tagKey (k + 1) [⟨t, [], 0⟩] [] []
          = bfsBuild env tagKey k
              ([] ++ (procFields tagKey [] 0 flds 0 [] [] []).2.2)
              (procFields tagKey [] 0 flds 0 [] [] []).1
              (procFields tagKey [] 0 flds 0 [] [] []).2.1 := by
        simp only [bfsBuild, hlook]
      rw [hb2] at hb
      obtain ⟨hf, hc⟩ := procFields_first tagKey [] 0 n flds 0 [] [] [] j sf rfl hfirst
      have hres := bfsBuild_seen env tagKey n k
        ([] ++ (procFields tagKey [] 0 flds 0 [] [] []).2.2)
        (procFields tagKey [] 0 flds 0 [] [] []).1
        (procFields tagKey [] 0 flds 0 [] [] []).2.1 outf hc hb
      rw [← hsch']
      show List.filter (fun fi => fi.jsonName = n) outf = [mkFieldInfo tagKey [] j sf]
      rw [hres, hf]
      rfl

/-- C6: anonymous-embedding name collision.  (1) In general: whenever the
root struct type itself declares a visible field emitting name `n` (the
first such being `sf` at declaration position `j`), the schema built by
`buildSchema` keeps exactly one descriptor for `n` - that direct, shallower
field at index path `[j]`; any colliding field of an anonymously embedded
struct (processed later in breadth-first order) is dropped.  (2) On the
concrete `Outer`/`Inner` pair where both declare a field emitting `name`,
the schema keeps the outer declaration (index `[1]`) plus the promoted
non-colliding `extra` (`[0, 1]`); and (3) for all field values the encoded
map binds `name` to the outer field's value. -/
theorem c6_embedding_outer_wins :
    (∀ (env : TypeEnv) (tagKey t n : String) (flds : List GoStructField)
        (j : Nat) (sf : GoStructField) (fuel : Nat) (sch : schema),
        List.lookup t env = some flds →
        firstEmit n flds 0 = some (j, sf) →
        buildSchema env tagKey t fuel = some sch →
        sch.fields.filter (fun fi => fi.jsonName = n) = [mkFieldInfo tagKey [] j sf]) ∧
    getSchema envEmbed "groups" "Outer" 10 = some schemaEmbed ∧
    (∀ vi ve vo : String,
      marshalToMap cfgG envEmbed [] 40
          (GoVal.vStruct "Outer"
            [GoVal.vStruct "Inner" [GoVal.vStr vi, GoVal.vStr ve], GoVal.vStr vo]) =
        some (Except.ok (some [("name", Jv.jStr vo), ("extra", Jv.jStr ve)]))) :=
  ⟨fun env tagKey t n flds j sf fuel sch hl hf hs =>
      buildSchema_first env tagKey t n flds j sf fuel sch hl hf hs,
    rfl,
    fun _ _ _ => rfl⟩

/-- Witness for C6 at the concrete `Outer`/`Inner` instance: the hypotheses
of the general conjunct hold for `envEmbed` and name `name` (first direct
emitter: field `Name` at position 1), and its conclusion picks out the
single outer descriptor. -/
theorem c6_embedding_outer_wins_witness :
    List.lookup "Outer" envEmbed =
      some [⟨"Inner", true, true, [], GoTy.strct "Inner"⟩,
        ⟨"Name", true, false, [("json", "name"), ("groups", "g")], GoTy.prim⟩] ∧
    firstEmit "name"
        [⟨"Inner", true, true, [], GoTy.strct "Inner"⟩,
          ⟨"Name", true, false, [("json", "name"), ("groups", "g")], GoTy.prim⟩] 0 =
      some (1, ⟨"Name", true, false, [("json", "name"), ("groups", "g")], GoTy.prim⟩) ∧
    buildSchema envEmbed "groups" "Outer" 10 = some schemaEmbed ∧
    schemaEmbed.fields.filter (fun fi => fi.jsonName = "name") =
      [mkFieldInfo "groups" [] 1
        ⟨"Name", true, false, [("json", "name"), ("groups", "g")], GoTy.prim⟩] :=
  ⟨rfl, rfl, rfl,
    c6_embedding_outer_wins.1 envEmbed "groups" "Outer" "name"
      [⟨"Inner", true, true, [], GoTy.strct "Inner"⟩,
        ⟨"Name", true, false, [("json", "name"), ("groups", "g")], GoTy.prim⟩]
      1 ⟨"Name", true, false, [("json", "name"), ("groups", "g")], GoTy.prim⟩
      10 schemaEmbed rfl rfl rfl⟩

end GroupJson
